import Mathlib

/-!
Verification development for the aoc2025 repository.

Each day of the repository is a self-contained Rust program.  This file
gives shallow embeddings of the data structures and algorithms of the
days the claims talk about, translated from the Rust sources
(`src/aoc-2025-N/src/main.rs`), and proves or refutes the claims.

Conventions used throughout:
* Rust `u64` / `u128` / `usize` values are embedded as `Nat`; where a
  saturating operation matters (`saturating_sub`, `saturating_add`) it is
  embedded explicitly (`Nat` subtraction is already saturating, a
  saturating increment on `u64` is capped at `2 ^ 64 - 1`).
* Rust `i32` / `isize` values are embedded as `Int`; `div_euclid` is
  `Int.ediv` and `rem_euclid` is `Int.emod`.
* `HashMap` / `HashSet` / `BTreeSet` are embedded as association lists /
  duplicate-free lists, `Vec` as `List`.
* fallible operations (`expect`, `unwrap`) are embedded with `Option`.
-/

set_option maxHeartbeats 1000000

namespace Day1

/-- Embedding of day 1 `get_by_zero` (src/aoc-2025-1/src/main.rs, lines
56-69).  `pos` and `turn` are `i32` in the source, embedded as `Int`;
`div_euclid` is `Int.ediv`. -/
def get_by_zero (pos turn : Int) : Int × Int :=
  let quot := (pos + turn).ediv 100
  let new_pos := (pos + turn) - quot * 100
  let by_zero :=
    if new_pos = 0 ∧ quot ≤ 0 then -quot + 1
    else if pos = 0 ∧ quot < 0 then -(quot + 1)
    else |quot|
  (new_pos, by_zero)

/-- Specification-side count from claim C5 (and from the repository's own
property test `test_get_by_zero`): the number of `i` in `1..=|step|` such
that `pos + i * sign step` is a multiple of `100`. -/
def crossingsSpec (pos step : Int) : Nat :=
  (((List.range step.natAbs).map (fun i => (i : Int) + 1)).filter
    (fun i => (pos + i * step.sign) % 100 == 0)).length

end Day1

/-- Claim C5: day 1 `get_by_zero` is claimed to return, for every
`0 ≤ pos ≤ 99` and nonzero `step`, a pair whose second component counts
the times the dial passes or lands on zero.  The code contradicts this
(and its own property test `test_get_by_zero`) at `pos = 0`,
`step = -100`: it returns `by_zero = 2` although the dial touches zero
exactly once during that turn. -/
theorem c5_get_by_zero_diverges :
    Day1.get_by_zero 0 (-100) = (0, 2) ∧ Day1.crossingsSpec 0 (-100) = 1 := by
  constructor
  · decide
  · decide

namespace Day10

/-- Model of a `good_lp` decision-variable declaration as built by the
builder chain `variable().integer().min(a).max(b)` used in day 10
(src/aoc-2025-10/src/main.rs). -/
structure VarSpec where
  integer : Bool
  min : Option Int
  max : Option Int
deriving DecidableEq

/-- Embedding of `good_lp::variable()`: a fresh continuous unbounded
variable. -/
def variableDef : VarSpec := ⟨false, none, none⟩

/-- Embedding of the `.integer()` builder call. -/
def VarSpec.setInteger (v : VarSpec) : VarSpec := ⟨true, v.min, v.max⟩

/-- Embedding of the `.min(b)` builder call. -/
def VarSpec.setMin (v : VarSpec) (b : Int) : VarSpec := ⟨v.integer, some b, v.max⟩

/-- Embedding of the `.max(b)` builder call. -/
def VarSpec.setMax (v : VarSpec) (b : Int) : VarSpec := ⟨v.integer, v.min, some b⟩

/-- Embedding of day 10 `Indicators` (a `BTreeSet<usize>`). -/
structure Indicators where
  list : List Nat

/-- Embedding of day 10 `Machine`. -/
structure Machine where
  target : Indicators
  buttons : List Indicators
  joltage : List Nat

/-- Decision variables added to the part-1 optimisation problem by
`Machine::find_shortest_button_press` (lines 38-40 of day 10): one vector
of `variable().integer().min(0).max(1)` of length `buttons.len()`
(`but_vars`), then one vector of `variable().integer().min(0)` of length
`joltage.len()` (`eveness_vars`).  `ProblemVariables::add_vector(spec, n)`
is embedded as `List.replicate n spec`. -/
def Machine.problemVarsPart1 (m : Machine) : List VarSpec :=
  List.replicate m.buttons.length ((variableDef.setInteger.setMin 0).setMax 1)
    ++ List.replicate m.joltage.length (variableDef.setInteger.setMin 0)

/-- Decision variables added to the part-2 optimisation problem by
`Machine::find_shortest_button_press_joltage` (line 82 of day 10): a
single vector of `variable().integer().min(0)` of length
`buttons.len()`. -/
def Machine.problemVarsPart2 (m : Machine) : List VarSpec :=
  List.replicate m.buttons.length (variableDef.setInteger.setMin 0)

/-- Binary integer variable `variable().integer().min(0).max(1)`. -/
def binaryVar : VarSpec := ⟨true, some 0, some 1⟩

/-- Nonnegative integer variable `variable().integer().min(0)` with no
upper bound. -/
def nonnegIntVar : VarSpec := ⟨true, some 0, none⟩

/-- Machine with one button and one joltage slot, used to exhibit
variables without the claimed upper bound. -/
def exMachine : Machine := ⟨⟨[0]⟩, [⟨[0]⟩], [1]⟩

end Day10

/-- Claim C8 as stated is false: not every decision variable added to the
two optimisation problems of day 10 is bounded above by 1.  For a machine
with one button and one joltage slot, the part-2 problem adds the
variable `integer().min(0)` with no `max` at all (and the part-1 problem
adds such a parity variable too). -/
theorem c8_counterexample :
    Day10.nonnegIntVar ∈ Day10.exMachine.problemVarsPart2 ∧
    Day10.nonnegIntVar.max ≠ some 1 ∧
    Day10.nonnegIntVar ∈ Day10.exMachine.problemVarsPart1 := by
  refine ⟨?_, by decide, ?_⟩ <;> decide

/-- Claim C8 amended: every decision variable added by day 10 is an
integer variable with lower bound 0; the part-1 button variables are
additionally bounded above by 1 (binary), while the part-1 parity
variables (`eveness_vars`) and all part-2 button variables have no upper
bound. -/
theorem c8_amended (m : Day10.Machine) :
    m.problemVarsPart1 =
      List.replicate m.buttons.length Day10.binaryVar
        ++ List.replicate m.joltage.length Day10.nonnegIntVar ∧
    m.problemVarsPart2 = List.replicate m.buttons.length Day10.nonnegIntVar := by
  exact ⟨rfl, rfl⟩

namespace Day12

/-- Embedding of day 12 `Problem` (src/aoc-2025-12/src/main.rs). -/
structure Problem where
  width : Nat
  height : Nat
  piece_counts : List Nat

/-- Embedding of `Problem::definitely_fits`. -/
def Problem.definitely_fits (p : Problem) : Bool :=
  p.piece_counts.sum ≤ (p.width / 3) * (p.height / 3)

/-- Embedding of `Problem::definitely_does_not_fit`. -/
def Problem.definitely_does_not_fit (p : Problem) (piece_sizes : List Nat) : Bool :=
  ((piece_sizes.zip p.piece_counts).map (fun sc => sc.1 * sc.2)).sum
    > p.width * p.height

/-- Embedding of day 12 `ProblemResult` (a record of three counters,
`#[derive(Debug, Default)]`). -/
structure ProblemResult where
  fit : Nat
  does_not_fit : Nat
  unknown : Nat
deriving DecidableEq

/-- Embedding of day 12 `Problems`. -/
structure Problems where
  piece_sizes : List Nat
  problems : List Problem

/-- Embedding of `Problems::part1`: classify every problem and count the
three outcomes. -/
def Problems.part1 (ps : Problems) : ProblemResult :=
  ps.problems.foldl
    (fun result problem =>
      if problem.definitely_fits then ⟨result.fit + 1, result.does_not_fit, result.unknown⟩
      else if problem.definitely_does_not_fit ps.piece_sizes then
        ⟨result.fit, result.does_not_fit + 1, result.unknown⟩
      else ⟨result.fit, result.does_not_fit, result.unknown + 1⟩)
    ⟨0, 0, 0⟩

/-- Embedding of day 12 `part2`: the constant `0u128`. -/
def part2 : Nat := 0

end Day12

namespace Day2

/-- Fuel-based computation of the number of decimal digits; `digitsCount`
below embeds the `n.to_string().len()` expressions of day 2
(src/aoc-2025-2/src/main.rs). -/
def digitsCountAux : Nat → Nat → Nat
  | _, 0 => 0
  | n, fuel + 1 => if n < 10 then 1 else digitsCountAux (n / 10) fuel + 1

/-- Number of decimal digits of `n`, i.e. `n.to_string().len()`. -/
def digitsCount (n : Nat) : Nat := digitsCountAux n (n + 1)

/-- Ideal (overflow-free) value of day 2 `repeat`: concatenate `count`
copies of the decimal representation of `pfx` (named `prefix` in the
source) as if computed over unbounded integers.  The faithful `u64`
version `repeatNum` below agrees with it exactly when this value fits in
a `u64`. -/
def repeatNumN (pfx count : Nat) : Nat :=
  let length := digitsCount pfx
  ((List.range count).map (fun idx => pfx * 10 ^ (idx * length))).sum

/-- `2^64`, the modulus of wrapping `u64` arithmetic. -/
def U64 : Nat := 2 ^ 64

/-- Embedding of day 2 `repeat` (lines 87-90) over `u64` (release
profile): `10u64.pow(idx * length)`, the multiplication by the prefix and
the running sum all wrap, i.e. are computed modulo `2^64`. -/
def repeatNum (pfx count : Nat) : Nat :=
  ((List.range count).map
    (fun idx => pfx * (10 ^ (idx * digitsCount pfx) % U64) % U64)).foldl
    (fun acc x => (acc + x) % U64) 0

/-- Embedding of day 2 `compute_invalid2` (lines 66-85).  The `u64`
arguments `begin` / `end` are embedded as `beginId` / `endId` (`end` is a
Lean keyword); the `HashSet` result is a `Finset`; inclusive ranges
`a..=b` are `List.range' a (b + 1 - a)` and half-open ranges `a..b` are
`List.range' a (b - a)`; the candidates are computed by the wrapping
`repeatNum` (the digit-count and range arithmetic on `begin` / `end`
itself never overflows: all those values are at most 20). -/
def compute_invalid2 (beginId endId : Nat) : Finset Nat :=
  let begin_digits_count := digitsCount beginId
  let end_digits_count := digitsCount endId
  let max_pfx_length := max 1 (end_digits_count / 2)
  ((List.range' 1 max_pfx_length).flatMap (fun length =>
    let begin_repeat := max (begin_digits_count / length) 2
    let end_repeat := end_digits_count / length
    let start_pfx := 10 ^ (length - 1)
    let limit := 10 ^ length
    (List.range' begin_repeat (end_repeat + 1 - begin_repeat)).flatMap
      (fun count_repeat =>
        let ids := (List.range' start_pfx (limit - start_pfx)).map
          (fun pfx => repeatNum pfx count_repeat)
        (ids.dropWhile (fun id => id < beginId)).takeWhile
          (fun id => id ≤ endId)))).toFinset

/-- Specification-side predicate from claim C4: the decimal
representation of `n` consists of some block of digits repeated at least
twice.  Stated on the little-endian `Nat.digits`; a list is a `c`-fold
repetition of a block exactly when its reverse is a `c`-fold repetition
of the reversed block, so this is equivalent to the big-endian
statement. -/
def IsRepetition (n : Nat) : Prop :=
  ∃ block c, 2 ≤ c ∧ block ≠ [] ∧
    Nat.digits 10 n = (List.replicate c block).flatten

/-- Arithmetic form of `IsRepetition`: `n` is an `L`-digit block `p`
(with no leading zero) repeated `c ≥ 2` times. -/
def IsRepetitionArith (n : Nat) : Prop :=
  ∃ L c p, 1 ≤ L ∧ 2 ≤ c ∧ 10 ^ (L - 1) ≤ p ∧ p < 10 ^ L ∧
    n = ((List.range c).map (fun i => p * 10 ^ (i * L))).sum

theorem digitsCountAux_eq (n : Nat) :
    ∀ f, n < f → digitsCountAux n f = Nat.log 10 n + 1 := by
  induction n using Nat.strong_induction_on with
  | _ n ih =>
    intro f hf
    match f, hf with
    | f + 1, hf =>
      by_cases h : n < 10
      · simp [digitsCountAux, h, Nat.log_eq_zero_iff.mpr (Or.inl h)]
      · push_neg at h
        have hdiv : n / 10 < n := Nat.div_lt_self (by omega) (by omega)
        rw [digitsCountAux, if_neg (by omega)]
        rw [ih (n / 10) hdiv f (by omega)]
        have hlogpos : 0 < Nat.log 10 n := Nat.log_pos (by omega) h
        rw [Nat.log_div_base]
        omega

theorem digitsCount_eq_log (n : Nat) : digitsCount n = Nat.log 10 n + 1 :=
  digitsCountAux_eq n (n + 1) (Nat.lt_succ_self n)

/-- Characterisation of `digitsCount` for positive numbers. -/
theorem digitsCount_bounds {n : Nat} (hn : n ≠ 0) :
    10 ^ (digitsCount n - 1) ≤ n ∧ n < 10 ^ digitsCount n := by
  rw [digitsCount_eq_log]
  exact ⟨by simpa using Nat.pow_log_le_self 10 hn,
    by simpa using Nat.lt_pow_succ_log_self (by norm_num) n⟩

theorem digitsCount_eq_of {n k : Nat} (hk : 1 ≤ k)
    (h1 : 10 ^ (k - 1) ≤ n) (h2 : n < 10 ^ k) : digitsCount n = k := by
  rw [digitsCount_eq_log]
  have : Nat.log 10 n = k - 1 := by
    apply Nat.log_eq_of_pow_le_of_lt_pow h1
    have : k - 1 + 1 = k := by omega
    rwa [this]
  omega

theorem digitsCount_mono {m n : Nat} (h : m ≤ n) :
    digitsCount m ≤ digitsCount n := by
  rw [digitsCount_eq_log, digitsCount_eq_log]
  exact Nat.succ_le_succ (Nat.log_mono_right h)

theorem digitsCount_eq_len {n : Nat} (hn : n ≠ 0) :
    digitsCount n = (Nat.digits 10 n).length := by
  rw [digitsCount_eq_log, Nat.digits_len 10 n (by norm_num) hn]

/-- Value of a string of `c` repetitions of an `L`-digit block with block
value 1, i.e. `1 + 10^L + 10^(2L) + ...` (`c` terms). -/
def repUnit (L c : Nat) : Nat := ((List.range c).map (fun i => 10 ^ (i * L))).sum

theorem repUnit_succ (L c : Nat) :
    repUnit L (c + 1) = repUnit L c + 10 ^ (c * L) := by
  unfold repUnit
  rw [List.range_succ, List.map_append, List.sum_append]
  simp

theorem sum_map_mul (p L c : Nat) :
    ((List.range c).map (fun i => p * 10 ^ (i * L))).sum = p * repUnit L c :=
  List.sum_map_mul_left (List.range c) (fun i => 10 ^ (i * L)) p

theorem repUnit_identity (L c : Nat) :
    (10 ^ L - 1) * repUnit L c + 1 = 10 ^ (c * L) := by
  induction c with
  | zero => simp [repUnit]
  | succ c ih =>
    obtain ⟨b, hbeq⟩ : ∃ b, 10 ^ L = b + 1 :=
      ⟨10 ^ L - 1, by have := Nat.one_le_pow L 10 (by norm_num); omega⟩
    have key : 10 ^ ((c + 1) * L) = 10 ^ (c * L) * 10 ^ L := by
      rw [← pow_add]
      ring_nf
    rw [repUnit_succ, key]
    rw [hbeq] at ih ⊢
    simp only [Nat.add_sub_cancel] at ih ⊢
    calc b * (repUnit L c + 10 ^ (c * L)) + 1
        = (b * repUnit L c + 1) + b * 10 ^ (c * L) := by ring
      _ = 10 ^ (c * L) + b * 10 ^ (c * L) := by rw [ih]
      _ = 10 ^ (c * L) * (b + 1) := by ring

theorem exp_arith {L c : Nat} (hL : 1 ≤ L) (hc : 1 ≤ c) :
    L - 1 + (c - 1) * L = c * L - 1 := by
  obtain ⟨x, rfl⟩ : ∃ x, L = x + 1 := ⟨L - 1, by omega⟩
  obtain ⟨y, rfl⟩ : ∃ y, c = y + 1 := ⟨c - 1, by omega⟩
  simp only [Nat.add_sub_cancel]
  have h : (y + 1) * (x + 1) = y * (x + 1) + (x + 1) := by ring
  rw [h]
  generalize y * (x + 1) = a
  omega

theorem rep_lower {L c p : Nat} (hL : 1 ≤ L) (hc : 1 ≤ c)
    (hp : 10 ^ (L - 1) ≤ p) : 10 ^ (c * L - 1) ≤ p * repUnit L c := by
  have hmem : 10 ^ ((c - 1) * L) ≤ repUnit L c := by
    apply List.single_le_sum (by intro x _; exact Nat.zero_le x)
    exact List.mem_map.mpr ⟨c - 1, List.mem_range.mpr (by omega), rfl⟩
  calc 10 ^ (c * L - 1) = 10 ^ (L - 1) * 10 ^ ((c - 1) * L) := by
        rw [← pow_add, exp_arith hL hc]
    _ ≤ p * repUnit L c := Nat.mul_le_mul hp hmem

theorem rep_upper {L c p : Nat} (hp : p < 10 ^ L) :
    p * repUnit L c < 10 ^ (c * L) := by
  have h := repUnit_identity L c
  have hple : p ≤ 10 ^ L - 1 := by omega
  have hmul : p * repUnit L c ≤ (10 ^ L - 1) * repUnit L c :=
    Nat.mul_le_mul_right _ hple
  omega

theorem digitsCount_rep {L c p : Nat} (hL : 1 ≤ L) (hc : 1 ≤ c)
    (hp1 : 10 ^ (L - 1) ≤ p) (hp2 : p < 10 ^ L) :
    digitsCount (p * repUnit L c) = c * L :=
  digitsCount_eq_of (Nat.one_le_iff_ne_zero.mpr
      (by positivity)) (rep_lower hL hc hp1) (rep_upper hp2)

theorem repeatNumN_eq {L p : Nat} (hL : 1 ≤ L) (hp1 : 10 ^ (L - 1) ≤ p)
    (hp2 : p < 10 ^ L) (c : Nat) : repeatNumN p c = p * repUnit L c := by
  show ((List.range c).map (fun idx => p * 10 ^ (idx * digitsCount p))).sum
    = p * repUnit L c
  rw [digitsCount_eq_of hL hp1 hp2, sum_map_mul]

theorem foldl_add_mod (l : List Nat) : ∀ acc : Nat, acc + l.sum < U64 →
    l.foldl (fun a x => (a + x) % U64) acc = acc + l.sum := by
  induction l with
  | nil => intro acc h; simp
  | cons x t ih =>
    intro acc h
    rw [List.sum_cons] at h
    rw [List.foldl_cons, List.sum_cons]
    rw [Nat.mod_eq_of_lt (by omega)]
    rw [ih (acc + x) (by omega)]
    omega

/-- Bridge: when the ideal repetition value fits in a `u64`, the wrapping
`repeat` computes it exactly. -/
theorem repeatNum_eq_noWrap {pfx c : Nat} (hp : 1 ≤ pfx)
    (h : repeatNumN pfx c < U64) : repeatNum pfx c = repeatNumN pfx c := by
  have hN : repeatNumN pfx c
      = ((List.range c).map (fun idx => pfx * 10 ^ (idx * digitsCount pfx))).sum :=
    rfl
  rw [hN] at h
  have hterm : ∀ idx ∈ List.range c,
      pfx * (10 ^ (idx * digitsCount pfx) % U64) % U64
        = pfx * 10 ^ (idx * digitsCount pfx) := by
    intro idx hidx
    have hle : pfx * 10 ^ (idx * digitsCount pfx)
        ≤ ((List.range c).map (fun i => pfx * 10 ^ (i * digitsCount pfx))).sum :=
      List.single_le_sum (fun x _ => Nat.zero_le x) _
        (List.mem_map.mpr ⟨idx, hidx, rfl⟩)
    have hpow : 10 ^ (idx * digitsCount pfx)
        ≤ pfx * 10 ^ (idx * digitsCount pfx) :=
      Nat.le_mul_of_pos_left _ (by omega)
    rw [Nat.mod_eq_of_lt (show 10 ^ (idx * digitsCount pfx) < U64 by omega),
      Nat.mod_eq_of_lt (show pfx * 10 ^ (idx * digitsCount pfx) < U64 by omega)]
  show ((List.range c).map
      (fun idx => pfx * (10 ^ (idx * digitsCount pfx) % U64) % U64)).foldl
      (fun acc x => (acc + x) % U64) 0 = repeatNumN pfx c
  rw [List.map_congr_left hterm, hN, foldl_add_mod _ 0 (by omega)]
  omega

/-- For an `L`-digit prefix `p` and a total width `c * L` of at most 19
digits the wrapping `repeat` returns the exact repetition value. -/
theorem repeatNum_eq_val {L c p : Nat} (hL : 1 ≤ L) (hp1 : 10 ^ (L - 1) ≤ p)
    (hp2 : p < 10 ^ L) (hcap : c * L ≤ 19) : repeatNum p c = p * repUnit L c := by
  have hNe : repeatNumN p c = p * repUnit L c := repeatNumN_eq hL hp1 hp2 c
  have hb : p * repUnit L c < U64 := by
    have h1 : p * repUnit L c < 10 ^ (c * L) := rep_upper hp2
    have h2 : (10 : Nat) ^ (c * L) ≤ 10 ^ 19 :=
      Nat.pow_le_pow_right (by norm_num) hcap
    have h3 : (10 : Nat) ^ 19 < 2 ^ 64 := by norm_num
    have hU : U64 = 2 ^ 64 := rfl
    omega
  have hp : 1 ≤ p := le_trans (Nat.one_le_pow _ _ (by norm_num)) hp1
  rw [repeatNum_eq_noWrap hp (by omega), hNe]

theorem mem_dropWhile_sorted {xs : List Nat} (hs : xs.Pairwise (· ≤ ·))
    (b y : Nat) : y ∈ xs.dropWhile (fun x => x < b) ↔ y ∈ xs ∧ b ≤ y := by
  induction xs with
  | nil => simp [List.dropWhile]
  | cons x t ih =>
    rw [List.pairwise_cons] at hs
    rw [List.dropWhile_cons]
    by_cases hx : x < b
    · rw [if_pos (by simpa using hx), ih hs.2]
      constructor
      · rintro ⟨hy, hby⟩
        exact ⟨List.mem_cons_of_mem _ hy, hby⟩
      · rintro ⟨hy, hby⟩
        rcases List.mem_cons.mp hy with rfl | hy
        · omega
        · exact ⟨hy, hby⟩
    · rw [if_neg (by simpa using hx)]
      constructor
      · intro hy
        refine ⟨hy, ?_⟩
        rcases List.mem_cons.mp hy with rfl | hy
        · omega
        · have := hs.1 y hy
          omega
      · exact fun h => h.1

theorem mem_takeWhile_sorted {xs : List Nat} (hs : xs.Pairwise (· ≤ ·))
    (e y : Nat) : y ∈ xs.takeWhile (fun x => x ≤ e) ↔ y ∈ xs ∧ y ≤ e := by
  induction xs with
  | nil => simp [List.takeWhile]
  | cons x t ih =>
    rw [List.pairwise_cons] at hs
    rw [List.takeWhile_cons]
    by_cases hx : x ≤ e
    · rw [if_pos (by simpa using hx)]
      rw [List.mem_cons, ih hs.2, List.mem_cons]
      constructor
      · rintro (rfl | ⟨hy, hye⟩)
        · exact ⟨Or.inl rfl, hx⟩
        · exact ⟨Or.inr hy, hye⟩
      · rintro ⟨rfl | hy, hye⟩
        · exact Or.inl rfl
        · exact Or.inr ⟨hy, hye⟩
    · rw [if_neg (by simpa using hx)]
      simp only [List.not_mem_nil, false_iff]
      rintro ⟨hy, hye⟩
      rcases List.mem_cons.mp hy with rfl | hy
      · omega
      · have := hs.1 y hy
        omega

/-- Membership in the innermost per-`(length, count)` list of
`compute_invalid2`: the `skip_while`/`take_while` pair on the (sorted)
list of repetitions of all `L`-digit prefixes keeps exactly those in
`[beginId, endId]`. -/
theorem mem_inner {L c : Nat} (hL : 1 ≤ L) (hcap : c * L ≤ 19)
    (beginId endId n : Nat) :
    (n ∈ ((((List.range' (10 ^ (L - 1)) (10 ^ L - 10 ^ (L - 1))).map
        (fun pfx => repeatNum pfx c)).dropWhile
          (fun id => id < beginId)).takeWhile (fun id => id ≤ endId))) ↔
      ((∃ p, 10 ^ (L - 1) ≤ p ∧ p < 10 ^ L ∧ n = p * repUnit L c)
        ∧ beginId ≤ n ∧ n ≤ endId) := by
  have hmemr : ∀ p ∈ List.range' (10 ^ (L - 1)) (10 ^ L - 10 ^ (L - 1)),
      10 ^ (L - 1) ≤ p ∧ p < 10 ^ L := by
    intro p hp
    have := List.mem_range'_1.mp hp
    have hlt : 10 ^ (L - 1) < 10 ^ L :=
      Nat.pow_lt_pow_right (by norm_num) (by omega)
    omega
  have hmap : ∀ {y}, y ∈ (List.range' (10 ^ (L - 1)) (10 ^ L - 10 ^ (L - 1))).map
      (fun pfx => repeatNum pfx c) ↔
      ∃ p, 10 ^ (L - 1) ≤ p ∧ p < 10 ^ L ∧ y = p * repUnit L c := by
    intro y
    rw [List.mem_map]
    constructor
    · rintro ⟨p, hp, rfl⟩
      obtain ⟨h1, h2⟩ := hmemr p hp
      exact ⟨p, h1, h2, repeatNum_eq_val hL h1 h2 hcap⟩
    · rintro ⟨p, h1, h2, rfl⟩
      refine ⟨p, List.mem_range'_1.mpr ⟨h1, ?_⟩, repeatNum_eq_val hL h1 h2 hcap⟩
      have hlt : 10 ^ (L - 1) < 10 ^ L :=
        Nat.pow_lt_pow_right (by norm_num) (by omega)
      omega
  have hsorted : ((List.range' (10 ^ (L - 1)) (10 ^ L - 10 ^ (L - 1))).map
      (fun pfx => repeatNum pfx c)).Pairwise (· ≤ ·) := by
    rw [List.pairwise_map]
    refine ((List.pairwise_lt_range' _ _ 1 ?_).imp_of_mem ?_)
    · norm_num
    · intro p q hp hq hpq
      obtain ⟨hp1, hp2⟩ := hmemr p hp
      obtain ⟨hq1, hq2⟩ := hmemr q hq
      rw [repeatNum_eq_val hL hp1 hp2 hcap, repeatNum_eq_val hL hq1 hq2 hcap]
      exact Nat.mul_le_mul_right _ (Nat.le_of_lt hpq)
  have hsorted2 := hsorted.sublist (List.dropWhile_suffix
    (fun id => id < beginId)).sublist
  rw [mem_takeWhile_sorted hsorted2, mem_dropWhile_sorted hsorted, hmap]
  tauto

theorem mem_compute_invalid2_arith (beginId endId n : Nat)
    (hend : endId < 10 ^ 19) :
    n ∈ compute_invalid2 beginId endId ↔
      beginId ≤ n ∧ n ≤ endId ∧ IsRepetitionArith n := by
  have h19 : digitsCount endId ≤ 19 := by
    have hle : endId ≤ 10 ^ 19 - 1 := by omega
    have hmono := digitsCount_mono hle
    have h9 : digitsCount (10 ^ 19 - 1) = 19 :=
      digitsCount_eq_of (by norm_num) (by norm_num) (by norm_num)
    omega
  simp only [compute_invalid2, List.mem_toFinset, List.mem_flatMap]
  constructor
  · rintro ⟨L, hLmem, c, hcmem, hn⟩
    rw [List.mem_range'_1] at hLmem hcmem
    have hL : 1 ≤ L := hLmem.1
    have hce : c ≤ digitsCount endId / L := by omega
    have hcap : c * L ≤ 19 := by
      have := (Nat.le_div_iff_mul_le (by omega)).mp hce
      omega
    rw [mem_inner hL hcap] at hn
    obtain ⟨⟨p, hp1, hp2, rfl⟩, hge, hle⟩ := hn
    refine ⟨hge, hle, L, c, p, hL, by omega, hp1, hp2, (sum_map_mul p L c).symm⟩
  · rintro ⟨hge, hle, L, c, p, hL, hc, hp1, hp2, hneq⟩
    have hLpos : 0 < L := hL
    have hdcn : digitsCount n = c * L := by
      rw [hneq, sum_map_mul]
      exact digitsCount_rep hL (by omega) hp1 hp2
    have hdce : digitsCount n ≤ digitsCount endId := digitsCount_mono hle
    have hdcb : digitsCount beginId ≤ digitsCount n := digitsCount_mono hge
    refine ⟨L, ?_, c, ?_, ?_⟩
    · rw [List.mem_range'_1]
      have h2L : L ≤ c * L / 2 := by
        rw [Nat.le_div_iff_mul_le (by norm_num)]
        calc L * 2 = 2 * L := by ring
          _ ≤ c * L := Nat.mul_le_mul_right L hc
      have : L ≤ digitsCount endId / 2 := by
        calc L ≤ c * L / 2 := h2L
          _ = digitsCount n / 2 := by rw [hdcn]
          _ ≤ digitsCount endId / 2 := Nat.div_le_div_right hdce
      omega
    · rw [List.mem_range'_1]
      have hcb : digitsCount beginId / L ≤ c := by
        calc digitsCount beginId / L ≤ digitsCount n / L :=
              Nat.div_le_div_right hdcb
          _ = c * L / L := by rw [hdcn]
          _ = c := Nat.mul_div_cancel c hLpos
      have hce : c ≤ digitsCount endId / L := by
        rw [Nat.le_div_iff_mul_le hLpos]
        calc c * L = digitsCount n := hdcn.symm
          _ ≤ digitsCount endId := hdce
      omega
    · have hcap : c * L ≤ 19 := by omega
      rw [mem_inner hL hcap]
      exact ⟨⟨p, hp1, hp2, by rw [hneq, sum_map_mul]⟩, hge, hle⟩

theorem repUnit_succ_left (L c : Nat) :
    repUnit L (c + 1) = 1 + 10 ^ L * repUnit L c := by
  unfold repUnit
  rw [List.range_succ_eq_map, List.map_cons, List.sum_cons, List.map_map,
    ← List.sum_map_mul_left]
  have h1 : (fun i => (10 : ℕ) ^ (i * L)) ∘ Nat.succ
      = fun b => 10 ^ L * 10 ^ (b * L) := by
    funext i
    show (10 : ℕ) ^ (Nat.succ i * L) = 10 ^ L * 10 ^ (i * L)
    rw [Nat.succ_mul, pow_add]
    exact mul_comm _ _
  rw [h1]
  norm_num

theorem ofDigits_flatten_replicate (block : List Nat) (c : Nat) :
    Nat.ofDigits 10 (List.replicate c block).flatten
      = Nat.ofDigits 10 block * repUnit block.length c := by
  induction c with
  | zero => simp [repUnit]
  | succ c ih =>
    rw [List.replicate_succ, List.flatten_cons, Nat.ofDigits_append, ih,
      repUnit_succ_left, Nat.mul_add, Nat.mul_one]
    ring

theorem flatten_replicate_getLast? (block : List Nat) (hbne : block ≠ []) :
    ∀ c, 1 ≤ c → ((List.replicate c block).flatten).getLast? = block.getLast? := by
  intro c
  induction c with
  | zero => omega
  | succ c ih =>
    intro _
    rcases Nat.eq_zero_or_pos c with rfl | hcpos
    · simp
    · rw [List.replicate_succ, List.flatten_cons, List.getLast?_append,
        ih hcpos, List.getLast?_eq_getLast block hbne]
      rfl

/-- Bridge between the digit-string statement of claim C4 and the
arithmetic characterisation the enumeration satisfies. -/
theorem isRepetition_iff_arith {n : Nat} (hn : 1 ≤ n) :
    IsRepetition n ↔ IsRepetitionArith n := by
  constructor
  · rintro ⟨block, c, hc, hbne, hdig⟩
    have hL : 1 ≤ block.length := List.length_pos.mpr hbne
    have hblocksub : ∀ x ∈ block, x ∈ Nat.digits 10 n := by
      intro x hx
      rw [hdig]
      obtain ⟨c', rfl⟩ : ∃ c', c = c' + 1 := ⟨c - 1, by omega⟩
      rw [List.replicate_succ, List.flatten_cons]
      exact List.mem_append_left _ hx
    have hdlt : ∀ x ∈ block, x < 10 := fun x hx =>
      Nat.digits_lt_base (by norm_num) (hblocksub x hx)
    have hplt : Nat.ofDigits 10 block < 10 ^ block.length :=
      Nat.ofDigits_lt_base_pow_length (by norm_num) hdlt
    have hlastd : (Nat.digits 10 n).getLast? = block.getLast? := by
      rw [hdig]
      exact flatten_replicate_getLast? block hbne c (by omega)
    have hlast : ∀ h : block ≠ [], block.getLast h ≠ 0 := by
      intro h
      have hnz := Nat.getLast_digit_ne_zero 10 (show n ≠ 0 by omega)
      have hne : Nat.digits 10 n ≠ [] := Nat.digits_ne_nil_iff_ne_zero.mpr (by omega)
      have e1 : (Nat.digits 10 n).getLast? = some ((Nat.digits 10 n).getLast hne) :=
        List.getLast?_eq_getLast _ hne
      have e2 : block.getLast? = some (block.getLast h) :=
        List.getLast?_eq_getLast _ h
      rw [e1, e2] at hlastd
      rw [← Option.some_inj.mp hlastd]
      exact hnz
    have hdp : Nat.digits 10 (Nat.ofDigits 10 block) = block :=
      Nat.digits_ofDigits 10 (by norm_num) block hdlt hlast
    have hpne : Nat.ofDigits 10 block ≠ 0 := by
      intro h0
      rw [h0, Nat.digits_zero] at hdp
      exact hbne hdp.symm
    have hdcp : digitsCount (Nat.ofDigits 10 block) = block.length := by
      rw [digitsCount_eq_len hpne, hdp]
    have hp1 : 10 ^ (block.length - 1) ≤ Nat.ofDigits 10 block := by
      have := (digitsCount_bounds hpne).1
      rwa [hdcp] at this
    refine ⟨block.length, c, Nat.ofDigits 10 block, hL, hc, hp1, hplt, ?_⟩
    rw [sum_map_mul, ← ofDigits_flatten_replicate, ← hdig, Nat.ofDigits_digits]
  · rintro ⟨L, c, p, hL, hc, hp1, hp2, hneq⟩
    have hpne : p ≠ 0 := by
      have := Nat.one_le_pow (L - 1) 10 (by norm_num)
      omega
    have hlen : (Nat.digits 10 p).length = L := by
      rw [← digitsCount_eq_len hpne, digitsCount_eq_of hL hp1 hp2]
    have hbne : Nat.digits 10 p ≠ [] := Nat.digits_ne_nil_iff_ne_zero.mpr hpne
    refine ⟨Nat.digits 10 p, c, hc, hbne, ?_⟩
    have hdlt : ∀ x ∈ (List.replicate c (Nat.digits 10 p)).flatten, x < 10 := by
      intro x hx
      rw [List.mem_flatten] at hx
      obtain ⟨l, hl, hx⟩ := hx
      rw [List.mem_replicate] at hl
      rw [hl.2] at hx
      exact Nat.digits_lt_base (by norm_num) hx
    have hlast : ∀ h : (List.replicate c (Nat.digits 10 p)).flatten ≠ [],
        ((List.replicate c (Nat.digits 10 p)).flatten).getLast h ≠ 0 := by
      intro h
      have hq := flatten_replicate_getLast? (Nat.digits 10 p) hbne c (by omega)
      have e1 := List.getLast?_eq_getLast _ h
      have e2 := List.getLast?_eq_getLast _ hbne
      rw [e1, e2] at hq
      rw [Option.some_inj.mp hq]
      exact Nat.getLast_digit_ne_zero 10 hpne
    have hround := Nat.digits_ofDigits 10 (by norm_num)
      ((List.replicate c (Nat.digits 10 p)).flatten) hdlt hlast
    rw [ofDigits_flatten_replicate, hlen, Nat.ofDigits_digits] at hround
    rw [hneq, sum_map_mul]
    exact hround

end Day2

/-- Claim C4 as stated is false: `repeat` computes its sum over `u64`,
which wraps in release profile (and panics in debug) as soon as
candidates of 20 digits are generated, and the claim's domain
`1 ≤ begin ≤ end` contains such inputs.  For `begin = 1`,
`end = u64::MAX = 2^64 - 1` the candidate with prefix 2 and 20
repetitions has true value `22222222222222222222 ≥ 2^64`; its wrapped
value `3775478148512670606` passes the `skip_while` / `take_while`
filters (every wrapped value is `≤ u64::MAX`) and is inserted into the
returned set, but it is not a repetition: it has 19 digits, 19 is prime,
and it is not one of the nine multiples `p * 1111111111111111111`
(`1 ≤ p ≤ 9`) of the 19-digit repunit. -/
theorem c4_counterexample :
    3775478148512670606 ∈ Day2.compute_invalid2 1 (2 ^ 64 - 1) ∧
    ¬ Day2.IsRepetition 3775478148512670606 := by
  constructor
  · simp only [Day2.compute_invalid2, List.mem_toFinset, List.mem_flatMap]
    exact ⟨1, by decide, 20, by decide, by decide⟩
  · intro hrep
    obtain ⟨L, c, p, hL, hc, hp1, hp2, hneq⟩ :=
      (Day2.isRepetition_iff_arith (by norm_num)).mp hrep
    rw [Day2.sum_map_mul] at hneq
    have hdc : Day2.digitsCount 3775478148512670606 = c * L := by
      rw [hneq]
      exact Day2.digitsCount_rep hL (by omega) hp1 hp2
    have hdc19 : Day2.digitsCount 3775478148512670606 = 19 := by decide
    have hcl : c * L = 19 := by omega
    have hdvd : L ∣ 19 := ⟨c, by rw [mul_comm L c]; omega⟩
    rcases Nat.Prime.eq_one_or_self_of_dvd (by norm_num) L hdvd with rfl | rfl
    · have hc19 : c = 19 := by omega
      subst hc19
      have hp1' : 1 ≤ p := by simpa using hp1
      have hp9 : p < 10 := by simpa using hp2
      have hru : Day2.repUnit 1 19 = 1111111111111111111 := by decide
      rw [hru] at hneq
      omega
    · omega

/-- Claim C4 amended: for `1 ≤ begin ≤ end < 10^19` every generated
candidate has at most 19 digits and hence fits in a `u64`, no `u64`
operation wraps, and `compute_invalid2` returns exactly the set of
integers `n` with `begin ≤ n ≤ end` whose decimal representation
consists of some block of digits repeated at least twice. -/
theorem c4_compute_invalid2_amended (beginId endId n : Nat)
    (h1 : 1 ≤ beginId) (_h2 : beginId ≤ endId) (hend : endId < 10 ^ 19) :
    n ∈ Day2.compute_invalid2 beginId endId ↔
      beginId ≤ n ∧ n ≤ endId ∧ Day2.IsRepetition n := by
  rw [Day2.mem_compute_invalid2_arith beginId endId n hend]
  constructor
  · rintro ⟨hge, hle, ha⟩
    exact ⟨hge, hle, (Day2.isRepetition_iff_arith (by omega)).mpr ha⟩
  · rintro ⟨hge, hle, hr⟩
    exact ⟨hge, hle, (Day2.isRepetition_iff_arith (by omega)).mp hr⟩

/-- Witness for C4 at the repository's own example `compute_invalid2(1, 14)`:
11 (= "1" repeated twice) is in the result. -/
theorem c4_witness : 11 ∈ Day2.compute_invalid2 1 14 :=
  (c4_compute_invalid2_amended 1 14 11 (by norm_num) (by norm_num)
      (by norm_num)).mpr
    ⟨by norm_num, by norm_num, ⟨[1], 2, by norm_num, by simp, by simp⟩⟩

namespace Day4

/-- Embedding of day 4 `Pos` (src/aoc-2025-4/src/main.rs). -/
structure Pos where
  x : Int
  y : Int
deriving DecidableEq

/-- Embedding of `Pos::get_neighbors_pos`: the eight surrounding
positions. -/
def Pos.get_neighbors_pos (p : Pos) : List Pos :=
  [⟨p.x - 1, p.y - 1⟩, ⟨p.x, p.y - 1⟩, ⟨p.x + 1, p.y - 1⟩,
   ⟨p.x - 1, p.y⟩, ⟨p.x + 1, p.y⟩,
   ⟨p.x - 1, p.y + 1⟩, ⟨p.x, p.y + 1⟩, ⟨p.x + 1, p.y + 1⟩]

/-- The day 4 `HashMap<Pos, Status>` is embedded as an association list
from positions to neighbour counts (`Status` holds a single `u8`
counter). -/
abbrev PosMap := List (Pos × Nat)

/-- Embedding of `HashMap::contains_key`. -/
def containsKey (m : PosMap) (p : Pos) : Bool := m.any (fun e => e.1 = p)

/-- Key list of the map model. -/
def keys (m : PosMap) : List Pos := m.map (fun e => e.1)

/-- Embedding of `HashMap::entry(k).and_modify(f)`: update the value at a
key if present, do nothing otherwise. -/
def mapModify (m : PosMap) (p : Pos) (f : Nat → Nat) : PosMap :=
  m.map (fun e => if e.1 = p then (e.1, f e.2) else e)

/-- Embedding of `HashMap::get`. -/
def mapGet (m : PosMap) (p : Pos) : Option Nat :=
  (m.find? (fun e => e.1 = p)).map (fun e => e.2)

/-- Embedding of `HashMap::insert` (replace the value if the key is
present, append otherwise). -/
def mapInsert (m : PosMap) (p : Pos) (v : Nat) : PosMap :=
  if containsKey m p then m.map (fun e => if e.1 = p then (e.1, v) else e)
  else m ++ [(p, v)]

/-- Embedding of `HashMap::remove`: erase the entry of the key. -/
def mapErase (m : PosMap) (p : Pos) : PosMap :=
  List.eraseP (fun e => decide (e.1 = p)) m

/-- Embedding of `HashSet<Pos>::insert` on a duplicate-free list. -/
def setInsert (s : List Pos) (p : Pos) : List Pos :=
  if p ∈ s then s else s ++ [p]

/-- Embedding of `HashSet<Pos>::remove`. -/
def setRemove (s : List Pos) (p : Pos) : List Pos :=
  s.filter (fun q => ¬ q = p)

/-- Embedding of `HashSet::extend`. -/
def setExtend (s t : List Pos) : List Pos := t.foldl setInsert s

/-- Embedding of day 4 `Grid`: the paper map and the set of cells marked
for deletion. -/
structure Grid where
  map : PosMap
  marked_for_deletion : List Pos

/-- Embedding of `Grid::get_neighbors` computed from a map: the
neighbouring positions that are present. -/
def get_neighbors (m : PosMap) (pos : Pos) : List Pos :=
  pos.get_neighbors_pos.filter (fun np => containsKey m np)

/-- Embedding of `Grid::add` (lines 51-72): bump the counters of the
present neighbours (unmarking any that reach 4), then insert the new cell
with its neighbour count, marking it when that count is below 4.  The
`unwrap` on `map.get(neighbor)` cannot fail (the neighbour is present)
and is embedded with `getD 0`. -/
def addStep (acc : Grid) (neighbor : Pos) : Grid :=
  let m1 := mapModify acc.map neighbor (fun c => c + 1)
  let marked1 :=
    if 4 ≤ (mapGet m1 neighbor).getD 0 then
      setRemove acc.marked_for_deletion neighbor
    else acc.marked_for_deletion
  ⟨m1, marked1⟩

def Grid.add (g : Grid) (pos : Pos) : Grid :=
  let neighbors := get_neighbors g.map pos
  let g1 := neighbors.foldl addStep g
  ⟨mapInsert g1.map pos neighbors.length,
   if neighbors.length < 4 then setInsert g1.marked_for_deletion pos
   else g1.marked_for_deletion⟩

/-- Embedding of `Grid::remove` (lines 90-103): decrement the counters of
the present neighbours (`saturating_sub` is `Nat` subtraction), collect
those that fall below 4, then erase the cell; returns the new map and the
collected positions (`Grid::remove` does not touch
`marked_for_deletion`). -/
def removeStep (acc : PosMap × List Pos) (neighbor : Pos) : PosMap × List Pos :=
  let m1 := mapModify acc.1 neighbor (fun c => c - 1)
  let collected :=
    if (mapGet m1 neighbor).getD 0 < 4 then acc.2 ++ [neighbor] else acc.2
  (m1, collected)

/-- Body of `Grid::remove` (see `removeStep` for the per-neighbour
decrement-and-collect step). -/
def removeFromMap (m : PosMap) (pos : Pos) : PosMap × List Pos :=
  let neighbors := get_neighbors m pos
  let st := neighbors.foldl removeStep (m, [])
  (mapErase st.1 pos, st.2)

/-- Embedding of `Grid::remove_papers_once` (lines 81-88): remove every
marked cell, gather the newly endangered neighbours into a set, and keep
only those that were not in the old marked set. -/
def sweepStep (acc : PosMap × List Pos) (pos : Pos) : PosMap × List Pos :=
  let r := removeFromMap acc.1 pos
  (r.1, setExtend acc.2 r.2)

def Grid.remove_papers_once (g : Grid) : Grid :=
  let st := g.marked_for_deletion.foldl sweepStep (g.map, [])
  ⟨st.1, st.2.filter (fun pos => ¬ pos ∈ g.marked_for_deletion)⟩

theorem containsKey_iff_mem_keys (m : PosMap) (p : Pos) :
    containsKey m p = true ↔ p ∈ keys m := by
  simp [containsKey, keys, List.any_eq_true, List.mem_map]

theorem containsKey_congr {m1 m2 : PosMap} (h : keys m1 = keys m2) (q : Pos) :
    containsKey m1 q = containsKey m2 q := by
  have h1 := containsKey_iff_mem_keys m1 q
  have h2 := containsKey_iff_mem_keys m2 q
  rw [h] at h1
  by_cases hq : q ∈ keys m2
  · rw [h1.mpr hq, h2.mpr hq]
  · have e1 : ¬containsKey m1 q = true := fun hh => hq (h1.mp hh)
    have e2 : ¬containsKey m2 q = true := fun hh => hq (h2.mp hh)
    simp only [Bool.not_eq_true] at e1 e2
    rw [e1, e2]

theorem keys_mapModify (m : PosMap) (p : Pos) (f : Nat → Nat) :
    keys (mapModify m p f) = keys m := by
  unfold keys mapModify
  rw [List.map_map]
  apply List.map_congr_left
  intro e _
  by_cases h : e.1 = p <;> simp [h]

theorem length_mapModify (m : PosMap) (p : Pos) (f : Nat → Nat) :
    (mapModify m p f).length = m.length := by
  simp [mapModify]

theorem length_mapErase (m : PosMap) (p : Pos) (h : containsKey m p = true) :
    (mapErase m p).length + 1 = m.length := by
  induction m with
  | nil => simp [containsKey] at h
  | cons e t ih =>
    by_cases he : e.1 = p
    · simp [mapErase, List.eraseP_cons, he]
    · simp only [containsKey, List.any_cons, Bool.or_eq_true,
        decide_eq_true_eq] at h
      rcases h with h | h
      · exact absurd h he
      · have := ih h
        simp only [mapErase, List.eraseP_cons, he] at this ⊢
        simpa using this

theorem containsKey_mapErase_of_ne (m : PosMap) {p q : Pos} (hne : q ≠ p) :
    containsKey (mapErase m p) q = containsKey m q := by
  induction m with
  | nil => simp [mapErase]
  | cons e t ih =>
    by_cases he : e.1 = p
    · have he2 : ¬e.1 = q := by
        rw [he]
        intro hh
        exact hne hh.symm
      have herase : mapErase (e :: t) p = t := by
        simp [mapErase, List.eraseP_cons, he]
      rw [herase]
      have hr : containsKey (e :: t) q = (decide (e.1 = q) || containsKey t q) :=
        rfl
      rw [hr]
      simp [he2]
    · have herase : mapErase (e :: t) p = e :: mapErase t p := by
        simp [mapErase, List.eraseP_cons, he]
      rw [herase]
      have hl : containsKey (e :: mapErase t p) q
          = (decide (e.1 = q) || containsKey (mapErase t p) q) := rfl
      have hr : containsKey (e :: t) q = (decide (e.1 = q) || containsKey t q) :=
        rfl
      rw [hl, hr, ih]

theorem containsKey_mapErase_imp (m : PosMap) (p q : Pos)
    (h : containsKey (mapErase m p) q = true) : containsKey m q = true := by
  by_cases hne : q = p
  · subst hne
    simp only [containsKey, List.any_eq_true] at h ⊢
    obtain ⟨e, he, hq⟩ := h
    exact ⟨e, (List.eraseP_sublist m).mem he, hq⟩
  · rwa [containsKey_mapErase_of_ne m hne] at h

theorem keys_nodup_mapErase (m : PosMap) (p : Pos) (h : (keys m).Nodup) :
    (keys (mapErase m p)).Nodup := by
  apply h.sublist
  exact List.Sublist.map (fun e => e.1) (List.eraseP_sublist m)

theorem containsKey_mapErase_self (m : PosMap) (p : Pos)
    (h : (keys m).Nodup) : containsKey (mapErase m p) p = false := by
  induction m with
  | nil => simp [mapErase, containsKey]
  | cons e t ih =>
    simp only [keys, List.map_cons, List.nodup_cons] at h
    by_cases he : e.1 = p
    · have hpt : containsKey t p = false := by
        rw [← Bool.not_eq_true, containsKey_iff_mem_keys]
        unfold keys
        rw [← he]
        exact h.1
      have herase : mapErase (e :: t) p = t := by
        simp [mapErase, List.eraseP_cons, he]
      rw [herase]
      exact hpt
    · have ih2 := ih h.2
      simp only [mapErase, List.eraseP_cons, he] at ih2 ⊢
      simp only [containsKey, List.any_cons] at ih2 ⊢
      simp [he, ih2]

theorem removeStep_foldl (neighbors : List Pos) :
    ∀ (m : PosMap) (coll : List Pos),
      keys ((neighbors.foldl removeStep (m, coll)).1) = keys m ∧
      ((neighbors.foldl removeStep (m, coll)).1).length = m.length ∧
      (∀ q ∈ (neighbors.foldl removeStep (m, coll)).2,
        q ∈ coll ∨ q ∈ neighbors) := by
  induction neighbors with
  | nil => simp
  | cons nb rest ih =>
    intro m coll
    rw [List.foldl_cons]
    have hstep : removeStep (m, coll) nb =
        (mapModify m nb (fun c => c - 1),
          if (mapGet (mapModify m nb (fun c => c - 1)) nb).getD 0 < 4
          then coll ++ [nb] else coll) := rfl
    rw [hstep]
    set m1 := mapModify m nb (fun c => c - 1) with hm1
    set coll1 := if (mapGet m1 nb).getD 0 < 4 then coll ++ [nb] else coll with hcoll1
    obtain ⟨h1, h2, h3⟩ := ih m1 coll1
    refine ⟨h1.trans (keys_mapModify m nb _), h2.trans (length_mapModify m nb _), ?_⟩
    intro q hq
    rcases h3 q hq with hq1 | hq1
    · rw [hcoll1] at hq1
      by_cases hc : (mapGet m1 nb).getD 0 < 4
      · rw [if_pos hc] at hq1
        rcases List.mem_append.mp hq1 with hq2 | hq2
        · exact Or.inl hq2
        · simp only [List.mem_singleton] at hq2
          exact Or.inr (hq2 ▸ List.mem_cons_self nb rest)
      · rw [if_neg hc] at hq1
        exact Or.inl hq1
    · exact Or.inr (List.mem_cons_of_mem nb hq1)

theorem neighbor_ne {p q : Pos} (h : q ∈ p.get_neighbors_pos) : q ≠ p := by
  intro hqp
  subst hqp
  simp only [Pos.get_neighbors_pos, List.mem_cons, List.mem_singleton,
    List.not_mem_nil, or_false] at h
  rcases h with h | h | h | h | h | h | h | h <;>
    (first
      | (have hx := congrArg Pos.x h
         simp only at hx
         omega)
      | (have hy := congrArg Pos.y h
         simp only at hy
         omega))

theorem mem_get_neighbors {m : PosMap} {pos q : Pos}
    (h : q ∈ get_neighbors m pos) :
    containsKey m q = true ∧ q ≠ pos := by
  unfold get_neighbors at h
  have := List.of_mem_filter h
  exact ⟨by simpa using this, neighbor_ne (List.mem_of_mem_filter h)⟩

theorem removeFromMap_length {m : PosMap} {pos : Pos}
    (h : containsKey m pos = true) :
    (removeFromMap m pos).1.length + 1 = m.length := by
  unfold removeFromMap
  obtain ⟨h1, h2, _⟩ := removeStep_foldl (get_neighbors m pos) m []
  have hc : containsKey (List.foldl removeStep (m, [])
      (get_neighbors m pos)).1 pos = true := by
    rw [containsKey_congr h1 pos]
    exact h
  rw [length_mapErase _ pos hc]
  exact h2

theorem removeFromMap_contains_of_ne {m : PosMap} {pos q : Pos}
    (hne : q ≠ pos) :
    containsKey (removeFromMap m pos).1 q = containsKey m q := by
  unfold removeFromMap
  obtain ⟨h1, _, _⟩ := removeStep_foldl (get_neighbors m pos) m []
  rw [containsKey_mapErase_of_ne _ hne]
  exact containsKey_congr h1 q

theorem removeFromMap_contains_imp {m : PosMap} {pos q : Pos}
    (h : containsKey (removeFromMap m pos).1 q = true) :
    containsKey m q = true := by
  unfold removeFromMap at h
  obtain ⟨h1, _, _⟩ := removeStep_foldl (get_neighbors m pos) m []
  have h3 := containsKey_mapErase_imp _ pos q h
  rwa [containsKey_congr h1 q] at h3

theorem removeFromMap_keys_nodup {m : PosMap} {pos : Pos}
    (h : (keys m).Nodup) : (keys (removeFromMap m pos).1).Nodup := by
  unfold removeFromMap
  obtain ⟨h1, _, _⟩ := removeStep_foldl (get_neighbors m pos) m []
  apply keys_nodup_mapErase
  rw [h1]
  exact h

theorem removeFromMap_contains_self {m : PosMap} {pos : Pos}
    (h : (keys m).Nodup) :
    containsKey (removeFromMap m pos).1 pos = false := by
  unfold removeFromMap
  obtain ⟨h1, _, _⟩ := removeStep_foldl (get_neighbors m pos) m []
  apply containsKey_mapErase_self
  rw [h1]
  exact h

theorem setInsert_mem {s : List Pos} {p q : Pos} (h : q ∈ setInsert s p) :
    q ∈ s ∨ q = p := by
  unfold setInsert at h
  by_cases hp : p ∈ s
  · rw [if_pos hp] at h
    exact Or.inl h
  · rw [if_neg hp] at h
    rcases List.mem_append.mp h with h | h
    · exact Or.inl h
    · exact Or.inr (List.mem_singleton.mp h)

theorem setInsert_nodup {s : List Pos} (h : s.Nodup) (p : Pos) :
    (setInsert s p).Nodup := by
  unfold setInsert
  by_cases hp : p ∈ s
  · rwa [if_pos hp]
  · rw [if_neg hp]
    simpa [List.nodup_append] using ⟨h, hp⟩

theorem setExtend_mem {s t : List Pos} {q : Pos} (h : q ∈ setExtend s t) :
    q ∈ s ∨ q ∈ t := by
  induction t generalizing s with
  | nil => exact Or.inl h
  | cons p rest ih =>
    unfold setExtend at h ih
    rw [List.foldl_cons] at h
    rcases ih h with h1 | h1
    · rcases setInsert_mem h1 with h2 | h2
      · exact Or.inl h2
      · exact Or.inr (h2 ▸ List.mem_cons_self p rest)
    · exact Or.inr (List.mem_cons_of_mem p h1)

theorem setExtend_nodup {s : List Pos} (h : s.Nodup) (t : List Pos) :
    (setExtend s t).Nodup := by
  induction t generalizing s with
  | nil => exact h
  | cons p rest ih =>
    unfold setExtend at ih ⊢
    rw [List.foldl_cons]
    exact ih (setInsert_nodup h p)

theorem removeFromMap_collected {m : PosMap} {pos q : Pos}
    (hq : q ∈ (removeFromMap m pos).2) :
    containsKey m q = true ∧ q ≠ pos := by
  unfold removeFromMap at hq
  obtain ⟨_, _, h3⟩ := removeStep_foldl (get_neighbors m pos) m []
  rcases h3 q hq with hq1 | hq1
  · simp at hq1
  · exact mem_get_neighbors hq1

/-- Main sweep lemma: folding `Grid::remove` over a duplicate-free list
of marked positions that are all present removes exactly those cells,
keeps the key list duplicate-free, and only collects positions that are
either still present at the end or were themselves in the processed
list. -/
theorem sweepStep_foldl (ms : List Pos) :
    ∀ (m : PosMap) (coll : List Pos), ms.Nodup → coll.Nodup →
      (∀ p ∈ ms, containsKey m p = true) → (keys m).Nodup →
      ((ms.foldl sweepStep (m, coll)).1.length + ms.length = m.length) ∧
      (keys (ms.foldl sweepStep (m, coll)).1).Nodup ∧
      ((ms.foldl sweepStep (m, coll)).2).Nodup ∧
      (∀ q, containsKey (ms.foldl sweepStep (m, coll)).1 q = true →
        containsKey m q = true) ∧
      (∀ q, containsKey m q = true → q ∉ ms →
        containsKey (ms.foldl sweepStep (m, coll)).1 q = true) ∧
      (∀ q ∈ (ms.foldl sweepStep (m, coll)).2,
        q ∈ coll ∨ containsKey (ms.foldl sweepStep (m, coll)).1 q = true
          ∨ q ∈ ms) := by
  induction ms with
  | nil =>
    intro m coll _ hcn _ hkn
    exact ⟨by simp, hkn, hcn, fun q h => h, fun q h _ => h,
      fun q hq => Or.inl hq⟩
  | cons pos rest ih =>
    intro m coll hmn hcn hpres hkn
    rw [List.nodup_cons] at hmn
    have hpos : containsKey m pos = true := hpres pos (List.mem_cons_self pos rest)
    rw [List.foldl_cons]
    have hstep : sweepStep (m, coll) pos
        = ((removeFromMap m pos).1, setExtend coll (removeFromMap m pos).2) :=
      rfl
    rw [hstep]
    have hlen1 := removeFromMap_length hpos
    have hkeys1 := @removeFromMap_keys_nodup _ pos hkn
    have hpres1 : ∀ p ∈ rest, containsKey (removeFromMap m pos).1 p = true := by
      intro p hp
      have hne : p ≠ pos := fun h => hmn.1 (h ▸ hp)
      rw [removeFromMap_contains_of_ne hne]
      exact hpres p (List.mem_cons_of_mem pos hp)
    obtain ⟨g1, g2, g3, g4, g5, g6⟩ := ih (removeFromMap m pos).1
      (setExtend coll (removeFromMap m pos).2) hmn.2
      (setExtend_nodup hcn _) hpres1 hkeys1
    refine ⟨by simp only [List.length_cons]; omega, g2, g3, ?_, ?_, ?_⟩
    · intro q hq
      exact removeFromMap_contains_imp (g4 q hq)
    · intro q hq hnq
      have hq1 : q ≠ pos := fun h => hnq (h ▸ List.mem_cons_self pos rest)
      have hq2 : q ∉ rest := fun h => hnq (List.mem_cons_of_mem pos h)
      apply g5 q _ hq2
      rw [removeFromMap_contains_of_ne hq1]
      exact hq
    · intro q hq
      rcases g6 q hq with h1 | h1 | h1
      · rcases setExtend_mem h1 with h2 | h2
        · exact Or.inl h2
        · obtain ⟨hc1, hc2⟩ := removeFromMap_collected h2
          by_cases hr : q ∈ rest
          · exact Or.inr (Or.inr (List.mem_cons_of_mem pos hr))
          · refine Or.inr (Or.inl (g5 q ?_ hr))
            rw [removeFromMap_contains_of_ne hc2]
            exact hc1
      · exact Or.inr (Or.inl h1)
      · exact Or.inr (Or.inr (List.mem_cons_of_mem pos h1))

/-- One call of `Grid::remove_papers_once` on a well-formed grid: the map
shrinks by exactly the number of marked cells, representation invariants
are kept, and the new marked set only contains cells still present. -/
theorem remove_papers_once_spec (g : Grid)
    (hmn : g.marked_for_deletion.Nodup)
    (hkn : (keys g.map).Nodup)
    (hsub : ∀ p ∈ g.marked_for_deletion, containsKey g.map p = true) :
    (g.remove_papers_once.map.length + g.marked_for_deletion.length
      = g.map.length) ∧
    (keys g.remove_papers_once.map).Nodup ∧
    g.remove_papers_once.marked_for_deletion.Nodup ∧
    (∀ q ∈ g.remove_papers_once.marked_for_deletion,
      containsKey g.remove_papers_once.map q = true) := by
  obtain ⟨h1, h2, h3, _h4, _h5, h6⟩ :=
    sweepStep_foldl g.marked_for_deletion g.map [] hmn List.nodup_nil hsub hkn
  unfold Grid.remove_papers_once
  refine ⟨h1, h2, h3.filter _, ?_⟩
  intro q hq
  have hq1 := List.mem_of_mem_filter hq
  have hq2 := List.of_mem_filter hq
  simp only [decide_eq_true_eq] at hq2
  rcases h6 q hq1 with h | h | h
  · exact absurd h (List.not_mem_nil q)
  · exact h
  · exact absurd h hq2

/-- The part-2 loop terminates: iterating `remove_papers_once` reaches an
empty marked set within `map.length + 1` sweeps. -/
theorem part2_loop_terminates :
    ∀ (n : Nat) (g : Grid), g.map.length ≤ n →
      g.marked_for_deletion.Nodup → (keys g.map).Nodup →
      (∀ p ∈ g.marked_for_deletion, containsKey g.map p = true) →
      ∃ k, 1 ≤ k ∧ k ≤ n + 1 ∧
        (Grid.remove_papers_once^[k] g).marked_for_deletion = [] := by
  intro n
  induction n with
  | zero =>
    intro g hlen hmn hkn hsub
    refine ⟨1, le_refl 1, by omega, ?_⟩
    have hmap : g.map = [] := List.length_eq_zero.mp (by omega)
    have hmarked : g.marked_for_deletion = [] := by
      cases hm : g.marked_for_deletion with
      | nil => rfl
      | cons p rest =>
        have := hsub p (hm ▸ List.mem_cons_self p rest)
        rw [hmap] at this
        simp [containsKey] at this
    rw [Function.iterate_one]
    unfold Grid.remove_papers_once
    rw [hmarked]
    simp
  | succ n ih =>
    intro g hlen hmn hkn hsub
    by_cases hempty : (Grid.remove_papers_once g).marked_for_deletion = []
    · exact ⟨1, le_refl 1, by omega, by rwa [Function.iterate_one]⟩
    · obtain ⟨h1, h2, h3, h4⟩ := remove_papers_once_spec g hmn hkn hsub
      have hgm : g.marked_for_deletion ≠ [] := by
        intro h0
        apply hempty
        unfold Grid.remove_papers_once
        rw [h0]
        simp
      have hmpos : 1 ≤ g.marked_for_deletion.length :=
        List.length_pos.mpr hgm
      have hlen2 : (Grid.remove_papers_once g).map.length ≤ n := by omega
      obtain ⟨k, hk1, hk2, hk3⟩ := ih (Grid.remove_papers_once g) hlen2 h3 h2 h4
      refine ⟨k + 1, by omega, by omega, ?_⟩
      rw [Function.iterate_succ_apply]
      exact hk3

theorem setRemove_mem {s : List Pos} {p q : Pos} (h : q ∈ setRemove s p) :
    q ∈ s := List.mem_of_mem_filter h

theorem setRemove_nodup {s : List Pos} (h : s.Nodup) (p : Pos) :
    (setRemove s p).Nodup := h.filter _

theorem keys_mapInsert_of_contains {m : PosMap} {p : Pos} (v : Nat)
    (h : containsKey m p = true) : keys (mapInsert m p v) = keys m := by
  unfold mapInsert keys
  rw [if_pos h, List.map_map]
  apply List.map_congr_left
  intro e _
  by_cases he : e.1 = p <;> simp [he]

theorem containsKey_mapInsert (m : PosMap) (p : Pos) (v : Nat) (q : Pos) :
    containsKey (mapInsert m p v) q = (containsKey m q || decide (q = p)) := by
  by_cases h : containsKey m p
  · rw [containsKey_congr (keys_mapInsert_of_contains v h) q]
    by_cases hqp : q = p
    · subst hqp
      simp [h]
    · simp [hqp]
  · unfold mapInsert
    rw [if_neg h]
    unfold containsKey
    rw [List.any_append]
    simp [eq_comm]

theorem keys_nodup_mapInsert {m : PosMap} (p : Pos) (v : Nat)
    (h : (keys m).Nodup) : (keys (mapInsert m p v)).Nodup := by
  by_cases hc : containsKey m p
  · rwa [keys_mapInsert_of_contains v hc]
  · unfold mapInsert
    rw [if_neg hc]
    unfold keys
    rw [List.map_append]
    simp only [List.map_cons, List.map_nil]
    rw [List.nodup_append]
    refine ⟨h, List.nodup_singleton p, ?_⟩
    intro a ha hb
    simp only [List.mem_singleton] at hb
    subst hb
    exact hc ((containsKey_iff_mem_keys m _).mpr ha)

/-- Folding the neighbour-bumping step of `Grid::add` keeps the key set,
and the marked set only loses elements. -/
theorem addStep_foldl (neighbors : List Pos) :
    ∀ (g : Grid),
      keys ((neighbors.foldl addStep g).map) = keys g.map ∧
      (∀ q ∈ (neighbors.foldl addStep g).marked_for_deletion,
        q ∈ g.marked_for_deletion) ∧
      (g.marked_for_deletion.Nodup →
        ((neighbors.foldl addStep g).marked_for_deletion).Nodup) := by
  induction neighbors with
  | nil => intro g; exact ⟨rfl, fun q h => h, fun h => h⟩
  | cons nb rest ih =>
    intro g
    rw [List.foldl_cons]
    set g1 := addStep g nb with hg1
    obtain ⟨h1, h2, h3⟩ := ih g1
    have hkeys : keys g1.map = keys g.map := by
      rw [hg1]
      unfold addStep
      by_cases hc : 4 ≤ (mapGet (mapModify g.map nb (fun c => c + 1)) nb).getD 0 <;>
        simp [hc, keys_mapModify]
    have hmarked : ∀ q ∈ g1.marked_for_deletion, q ∈ g.marked_for_deletion := by
      intro q hq
      rw [hg1] at hq
      unfold addStep at hq
      by_cases hc : 4 ≤ (mapGet (mapModify g.map nb (fun c => c + 1)) nb).getD 0
      · simp only [hc, if_pos] at hq
        exact setRemove_mem hq
      · simpa [hc] using hq
    have hnodup : g.marked_for_deletion.Nodup → g1.marked_for_deletion.Nodup := by
      intro hn
      rw [hg1]
      unfold addStep
      by_cases hc : 4 ≤ (mapGet (mapModify g.map nb (fun c => c + 1)) nb).getD 0
      · simpa [hc] using setRemove_nodup hn nb
      · simpa [hc] using hn
    exact ⟨h1.trans hkeys, fun q hq => hmarked q (h2 q hq),
      fun hn => h3 (hnodup hn)⟩

/-- Construction invariant: `Grid::add` preserves the well-formedness
used by the termination theorem (duplicate-free key list, duplicate-free
marked set, marked cells all present), so every grid built by parsing
satisfies those hypotheses. -/
theorem add_preserves_inv (g : Grid) (pos : Pos)
    (hmn : g.marked_for_deletion.Nodup)
    (hkn : (keys g.map).Nodup)
    (hsub : ∀ p ∈ g.marked_for_deletion, containsKey g.map p = true) :
    (g.add pos).marked_for_deletion.Nodup ∧
    (keys (g.add pos).map).Nodup ∧
    (∀ p ∈ (g.add pos).marked_for_deletion,
      containsKey (g.add pos).map p = true) := by
  obtain ⟨h1, h2, h3⟩ := addStep_foldl (get_neighbors g.map pos) g
  unfold Grid.add
  set g1 := (get_neighbors g.map pos).foldl addStep g
  have hg1sub : ∀ p ∈ g1.marked_for_deletion, containsKey g1.map p = true := by
    intro p hp
    rw [containsKey_congr h1 p]
    exact hsub p (h2 p hp)
  constructor
  · by_cases hlt : (get_neighbors g.map pos).length < 4
    · simpa [hlt] using setInsert_nodup (h3 hmn) pos
    · simpa [hlt] using h3 hmn
  constructor
  · simp only
    apply keys_nodup_mapInsert
    rw [h1]
    exact hkn
  · intro p hp
    simp only at hp ⊢
    rw [containsKey_mapInsert]
    by_cases hppos : p = pos
    · simp [hppos]
    · have hpmem : p ∈ g1.marked_for_deletion := by
        by_cases hlt : (get_neighbors g.map pos).length < 4
        · rw [if_pos hlt] at hp
          rcases setInsert_mem hp with h | h
          · exact h
          · exact absurd h hppos
        · rwa [if_neg hlt] at hp
      rw [hg1sub p hpmem]
      simp

end Day4

/-- Claim C9: day 4's removal loop terminates — for every grid whose
marked set is a set of cells present in the (finite) map, iterating
`remove_papers_once` reaches an empty marked set within `map.length + 1`
sweeps; moreover a sweep with a nonempty marked set removes at least one
cell, and the new marked set only contains cells still present.  (The
two `Nodup` hypotheses are the `HashMap`/`HashSet` representation
invariants of the association-list model; `add_preserves_inv` shows all
grids built by parsing satisfy all hypotheses.) -/
theorem c9_day4_removal_terminates (g : Day4.Grid)
    (hmn : g.marked_for_deletion.Nodup)
    (hkn : (Day4.keys g.map).Nodup)
    (hsub : ∀ p ∈ g.marked_for_deletion, Day4.containsKey g.map p = true) :
    (∃ k, 1 ≤ k ∧ k ≤ g.map.length + 1 ∧
      (Day4.Grid.remove_papers_once^[k] g).marked_for_deletion = []) ∧
    (g.marked_for_deletion ≠ [] →
      g.remove_papers_once.map.length < g.map.length) ∧
    (∀ q ∈ g.remove_papers_once.marked_for_deletion,
      Day4.containsKey g.remove_papers_once.map q = true) := by
  obtain ⟨h1, _h2, _h3, h4⟩ := Day4.remove_papers_once_spec g hmn hkn hsub
  refine ⟨Day4.part2_loop_terminates g.map.length g (le_refl _) hmn hkn hsub,
    ?_, h4⟩
  intro hne
  have := List.length_pos.mpr hne
  omega

/-- Witness for C9 on a one-cell grid whose only cell is marked. -/
theorem c9_witness :
    ∃ k, 1 ≤ k ∧ k ≤ 2 ∧
      (Day4.Grid.remove_papers_once^[k]
        (⟨[(⟨0, 0⟩, 0)], [⟨0, 0⟩]⟩ : Day4.Grid)).marked_for_deletion = [] :=
  (c9_day4_removal_terminates ⟨[(⟨0, 0⟩, 0)], [⟨0, 0⟩]⟩ (by decide) (by decide)
    (by decide)).1

namespace Day5

/-- Largest `u64` value. -/
def U64MAX : Nat := 2 ^ 64 - 1

/-- Embedding of `u64::saturating_sub(1)` (`Nat` subtraction already
saturates at 0). -/
def satSub1 (x : Nat) : Nat := x - 1

/-- Embedding of `u64::saturating_add(1)` (saturates at `u64::MAX`). -/
def satAdd1 (x : Nat) : Nat := min (x + 1) U64MAX

/-- Embedding of day 5 `FoodRange` (src/aoc-2025-5/src/main.rs): an
inclusive range of `u64` ids. -/
structure FoodRange where
  lower : Nat
  upper : Nat
deriving DecidableEq

/-- Embedding of day 5 `RangeFusionResult`. -/
inductive RangeFusionResult where
  | left (r : FoodRange)
  | right (r : FoodRange)
  | fused (r : FoodRange)

/-- Embedding of day 5 `RangeContainResult`. -/
inductive RangeContainResult where
  | left
  | right
  | inside

/-- Embedding of `FoodRange::fuse_with`. -/
def FoodRange.fuse_with (s : FoodRange) (range : FoodRange) : RangeFusionResult :=
  if range.upper < s.lower then .left range
  else if s.upper < range.lower then .right range
  else .fused ⟨min s.lower range.lower, max s.upper range.upper⟩

/-- Embedding of `FoodRange::contains`. -/
def FoodRange.contains (s : FoodRange) (id : Nat) : RangeContainResult :=
  if id < s.lower then .left
  else if s.upper < id then .right
  else .inside

/-- Embedding of `FoodRange::adapt_new_lower`. -/
def FoodRange.adapt_new_lower (s : FoodRange) (new_lower : Nat) :
    Option FoodRange :=
  let new_upper := min s.upper (satSub1 new_lower)
  if new_upper < s.lower then none else some ⟨s.lower, new_upper⟩

/-- Embedding of `FoodRange::adapt_new_upper`. -/
def FoodRange.adapt_new_upper (s : FoodRange) (new_upper : Nat) :
    Option FoodRange :=
  let new_lower := max s.lower (satAdd1 new_upper)
  if s.upper < new_lower then none else some ⟨new_lower, s.upper⟩

/-- Embedding of `FoodRange::size` (`upper - lower + 1`; the `u64`
subtraction would panic for an empty range, stored ranges are always
nonempty). -/
def FoodRange.size (s : FoodRange) : Nat := s.upper - s.lower + 1

/-- Embedding of day 5 `RangeTree` / `NodeRange`: `leaf` is a tree whose
`node` option is `None`; a `node` holds the range and the two
subtrees. -/
inductive RangeTree where
  | leaf
  | node (value : FoodRange) (left right : RangeTree)
deriving DecidableEq

/-- Embedding of `RangeTree::push_new_lower` / `NodeRange::push_new_lower`:
push the new lower bound into both subtrees, adapt the node's range, and
when the node dies replace the tree by its (already pushed) left
subtree. -/
def RangeTree.push_new_lower : RangeTree → Nat → RangeTree
  | .leaf, _ => .leaf
  | .node v l r, nl =>
    let l2 := l.push_new_lower nl
    let r2 := r.push_new_lower nl
    match v.adapt_new_lower nl with
    | some adapted => .node adapted l2 r2
    | none => l2

/-- Embedding of `RangeTree::push_new_upper` / `NodeRange::push_new_upper`. -/
def RangeTree.push_new_upper : RangeTree → Nat → RangeTree
  | .leaf, _ => .leaf
  | .node v l r, nu =>
    let l2 := l.push_new_upper nu
    let r2 := r.push_new_upper nu
    match v.adapt_new_upper nu with
    | some adapted => .node adapted l2 r2
    | none => r2

/-- Embedding of `RangeTree::insert` / `NodeRange::insert`. -/
def RangeTree.insert : RangeTree → FoodRange → RangeTree
  | .leaf, range => .node range .leaf .leaf
  | .node v l r, range =>
    match v.fuse_with range with
    | .left fr => .node v (l.insert fr) r
    | .right fr => .node v l (r.insert fr)
    | .fused fr => .node fr (l.push_new_lower fr.lower) (r.push_new_upper fr.upper)

/-- Embedding of `RangeTree::contains` / `NodeRange::contains`. -/
def RangeTree.contains : RangeTree → Nat → Bool
  | .leaf, _ => false
  | .node v l r, id =>
    match v.contains id with
    | .left => l.contains id
    | .right => r.contains id
    | .inside => true

/-- Embedding of `RangeTree::size` / `NodeRange::size`. -/
def RangeTree.size : RangeTree → Nat
  | .leaf => 0
  | .node v l r => v.size + l.size + r.size

/-- All ranges stored in a tree. -/
def RangeTree.ranges : RangeTree → List FoodRange
  | .leaf => []
  | .node v l r => v :: (l.ranges ++ r.ranges)

/-- Set of ids covered by a tree (union of the stored ranges). -/
def RangeTree.cov : RangeTree → Finset Nat
  | .leaf => ∅
  | .node v l r => Finset.Icc v.lower v.upper ∪ l.cov ∪ r.cov

/-- The search-ordering invariant of claim C7: at every node, every range
stored in the left subtree ends strictly before the node's range starts,
and every range stored in the right subtree starts strictly after the
node's range ends (and every stored range is nonempty). -/
def RangeTree.Inv : RangeTree → Prop
  | .leaf => True
  | .node v l r =>
    v.lower ≤ v.upper ∧
    (∀ fr ∈ l.ranges, fr.upper < v.lower) ∧
    (∀ fr ∈ r.ranges, v.upper < fr.lower) ∧
    l.Inv ∧ r.Inv

instance instDecidableInv : (t : RangeTree) → Decidable t.Inv
  | .leaf => .isTrue trivial
  | .node _ l r =>
    have : Decidable l.Inv := instDecidableInv l
    have : Decidable r.Inv := instDecidableInv r
    inferInstanceAs (Decidable (_ ∧ _ ∧ _ ∧ _ ∧ _))

/-- Bounds under which the `u64` saturating operations are exact: the
range lies in `[1, u64::MAX - 1]`. -/
def FoodRange.InB (fr : FoodRange) : Prop :=
  1 ≤ fr.lower ∧ fr.upper ≤ U64MAX - 1

/-- Embedding of the day 5 parse loop (`for line in ranges.lines()
{ tree.insert(food_range) }`): insert a list of ranges into an initially
empty tree. -/
def insertAll (rs : List FoodRange) : RangeTree :=
  rs.foldl RangeTree.insert .leaf

theorem cov_mem_iff (t : RangeTree) (id : Nat) :
    id ∈ t.cov ↔ ∃ fr ∈ t.ranges, fr.lower ≤ id ∧ id ≤ fr.upper := by
  induction t with
  | leaf => simp [RangeTree.cov, RangeTree.ranges]
  | node v l r ihl ihr =>
    simp only [RangeTree.cov, RangeTree.ranges, Finset.mem_union,
      Finset.mem_Icc, ihl, ihr, List.mem_cons, List.mem_append]
    constructor
    · rintro ((h | ⟨fr, hm, hb⟩) | ⟨fr, hm, hb⟩)
      · exact ⟨v, Or.inl rfl, h⟩
      · exact ⟨fr, Or.inr (Or.inl hm), hb⟩
      · exact ⟨fr, Or.inr (Or.inr hm), hb⟩
    · rintro ⟨fr, rfl | hm | hm, hb⟩
      · exact Or.inl (Or.inl hb)
      · exact Or.inl (Or.inr ⟨fr, hm, hb⟩)
      · exact Or.inr ⟨fr, hm, hb⟩

theorem cov_lt {t : RangeTree} {B id : Nat}
    (hB : ∀ fr ∈ t.ranges, fr.upper < B) (h : id ∈ t.cov) : id < B := by
  rw [cov_mem_iff] at h
  obtain ⟨fr, hfr, _, h2⟩ := h
  exact lt_of_le_of_lt h2 (hB fr hfr)

theorem cov_gt {t : RangeTree} {B id : Nat}
    (hB : ∀ fr ∈ t.ranges, B < fr.lower) (h : id ∈ t.cov) : B < id := by
  rw [cov_mem_iff] at h
  obtain ⟨fr, hfr, h1, _⟩ := h
  exact lt_of_lt_of_le (hB fr hfr) h1

theorem adapt_new_lower_eq (v : FoodRange) (nl : Nat) :
    v.adapt_new_lower nl
      = if min v.upper (nl - 1) < v.lower then none
        else some ⟨v.lower, min v.upper (nl - 1)⟩ := rfl

theorem adapt_new_upper_eq (v : FoodRange) (nu : Nat) :
    v.adapt_new_upper nu
      = if v.upper < max v.lower (satAdd1 nu) then none
        else some ⟨max v.lower (satAdd1 nu), v.upper⟩ := rfl

theorem satAdd1_eq {nu : Nat} (h : nu ≤ U64MAX - 1) : satAdd1 nu = nu + 1 := by
  unfold satAdd1 U64MAX at *
  omega

/-- Effect of `push_new_lower`: the invariant is preserved, every
surviving range is a cut-down version of a stored one ending strictly
before the new lower bound, and the covered set is the old one cut at the
new lower bound. -/
theorem push_new_lower_spec (t : RangeTree) : ∀ (nl : Nat), t.Inv → 1 ≤ nl →
    (t.push_new_lower nl).Inv ∧
    (∀ fr ∈ (t.push_new_lower nl).ranges, ∃ fr0 ∈ t.ranges,
      fr.lower = fr0.lower ∧ fr.upper ≤ fr0.upper ∧ fr.upper < nl) ∧
    (∀ id, id ∈ (t.push_new_lower nl).cov ↔ id ∈ t.cov ∧ id < nl) := by
  induction t with
  | leaf =>
    intro nl _ _
    exact ⟨trivial, by simp [RangeTree.ranges, RangeTree.push_new_lower],
      by simp [RangeTree.cov, RangeTree.push_new_lower]⟩
  | node v l r ihl ihr =>
    intro nl hinv hnl
    obtain ⟨hwf, hlb, hrb, hlinv, hrinv⟩ := hinv
    obtain ⟨il1, il2, il3⟩ := ihl nl hlinv hnl
    obtain ⟨ir1, ir2, ir3⟩ := ihr nl hrinv hnl
    by_cases hdead : min v.upper (nl - 1) < v.lower
    · have heq : (RangeTree.node v l r).push_new_lower nl = l.push_new_lower nl := by
        simp [RangeTree.push_new_lower, adapt_new_lower_eq, hdead]
      rw [heq]
      have hlow : nl ≤ v.lower := by omega
      refine ⟨il1, ?_, ?_⟩
      · intro fr hfr
        obtain ⟨fr0, hm, h1, h2, h3⟩ := il2 fr hfr
        exact ⟨fr0, by simp [RangeTree.ranges, List.mem_cons, List.mem_append,
          hm], h1, h2, h3⟩
      · intro id
        rw [il3]
        simp only [RangeTree.cov, Finset.mem_union, Finset.mem_Icc]
        constructor
        · rintro ⟨h1, h2⟩
          exact ⟨Or.inl (Or.inr h1), h2⟩
        · rintro ⟨(h1 | h1) | h1, h2⟩
          · omega
          · exact ⟨h1, h2⟩
          · have := cov_gt hrb h1
            omega
    · have heq : (RangeTree.node v l r).push_new_lower nl
          = .node ⟨v.lower, min v.upper (nl - 1)⟩ (l.push_new_lower nl)
            (r.push_new_lower nl) := by
        simp [RangeTree.push_new_lower, adapt_new_lower_eq, hdead]
      rw [heq]
      refine ⟨⟨by simp only; omega, ?_, ?_, il1, ir1⟩, ?_, ?_⟩
      · intro fr hfr
        obtain ⟨fr0, hm, h1, h2, _⟩ := il2 fr hfr
        have := hlb fr0 hm
        simp only
        omega
      · intro fr hfr
        obtain ⟨fr0, hm, h1, h2, _⟩ := ir2 fr hfr
        have := hrb fr0 hm
        simp only
        omega
      · intro fr hfr
        rcases List.mem_cons.mp hfr with rfl | hfr2
        · exact ⟨v, by simp [RangeTree.ranges], rfl, by simp only; omega,
            by simp only; omega⟩
        · rcases List.mem_append.mp hfr2 with hm | hm
          · obtain ⟨fr0, hm0, h1, h2, h3⟩ := il2 fr hm
            exact ⟨fr0, by simp [RangeTree.ranges, List.mem_cons,
              List.mem_append, hm0], h1, h2, h3⟩
          · obtain ⟨fr0, hm0, h1, h2, h3⟩ := ir2 fr hm
            exact ⟨fr0, by simp [RangeTree.ranges, List.mem_cons,
              List.mem_append, hm0], h1, h2, h3⟩
      · intro id
        simp only [RangeTree.cov, Finset.mem_union, Finset.mem_Icc, il3, ir3]
        constructor
        · rintro ((h | h) | h)
          · exact ⟨Or.inl (Or.inl ⟨h.1, by omega⟩), by omega⟩
          · exact ⟨Or.inl (Or.inr h.1), h.2⟩
          · exact ⟨Or.inr h.1, h.2⟩
        · rintro ⟨(h | h) | h, h2⟩
          · exact Or.inl (Or.inl ⟨h.1, by omega⟩)
          · exact Or.inl (Or.inr ⟨h, h2⟩)
          · exact Or.inr ⟨h, h2⟩

/-- Effect of `push_new_upper`, symmetric to `push_new_lower_spec`; the
bound `nu ≤ u64::MAX - 1` makes the saturating increment exact. -/
theorem push_new_upper_spec (t : RangeTree) : ∀ (nu : Nat), t.Inv →
    nu ≤ U64MAX - 1 →
    (t.push_new_upper nu).Inv ∧
    (∀ fr ∈ (t.push_new_upper nu).ranges, ∃ fr0 ∈ t.ranges,
      fr.upper = fr0.upper ∧ fr0.lower ≤ fr.lower ∧ nu < fr.lower) ∧
    (∀ id, id ∈ (t.push_new_upper nu).cov ↔ id ∈ t.cov ∧ nu < id) := by
  induction t with
  | leaf =>
    intro nu _ _
    exact ⟨trivial, by simp [RangeTree.ranges, RangeTree.push_new_upper],
      by simp [RangeTree.cov, RangeTree.push_new_upper]⟩
  | node v l r ihl ihr =>
    intro nu hinv hnu
    obtain ⟨hwf, hlb, hrb, hlinv, hrinv⟩ := hinv
    obtain ⟨il1, il2, il3⟩ := ihl nu hlinv hnu
    obtain ⟨ir1, ir2, ir3⟩ := ihr nu hrinv hnu
    have hsat : satAdd1 nu = nu + 1 := satAdd1_eq hnu
    by_cases hdead : v.upper < max v.lower (satAdd1 nu)
    · have heq : (RangeTree.node v l r).push_new_upper nu = r.push_new_upper nu := by
        simp [RangeTree.push_new_upper, adapt_new_upper_eq, hdead]
      rw [heq]
      have hhigh : v.upper ≤ nu := by omega
      refine ⟨ir1, ?_, ?_⟩
      · intro fr hfr
        obtain ⟨fr0, hm, h1, h2, h3⟩ := ir2 fr hfr
        exact ⟨fr0, by simp [RangeTree.ranges, List.mem_cons, List.mem_append,
          hm], h1, h2, h3⟩
      · intro id
        rw [ir3]
        simp only [RangeTree.cov, Finset.mem_union, Finset.mem_Icc]
        constructor
        · rintro ⟨h1, h2⟩
          exact ⟨Or.inr h1, h2⟩
        · rintro ⟨(h1 | h1) | h1, h2⟩
          · omega
          · have := cov_lt hlb h1
            omega
          · exact ⟨h1, h2⟩
    · have heq : (RangeTree.node v l r).push_new_upper nu
          = .node ⟨max v.lower (satAdd1 nu), v.upper⟩ (l.push_new_upper nu)
            (r.push_new_upper nu) := by
        simp [RangeTree.push_new_upper, adapt_new_upper_eq, hdead]
      rw [heq]
      refine ⟨⟨by simp only; omega, ?_, ?_, il1, ir1⟩, ?_, ?_⟩
      · intro fr hfr
        obtain ⟨fr0, hm, h1, h2, _⟩ := il2 fr hfr
        have := hlb fr0 hm
        simp only
        omega
      · intro fr hfr
        obtain ⟨fr0, hm, h1, h2, _⟩ := ir2 fr hfr
        have := hrb fr0 hm
        simp only
        omega
      · intro fr hfr
        rcases List.mem_cons.mp hfr with rfl | hfr2
        · exact ⟨v, by simp [RangeTree.ranges], rfl, by simp only; omega,
            by simp only; omega⟩
        · rcases List.mem_append.mp hfr2 with hm | hm
          · obtain ⟨fr0, hm0, h1, h2, h3⟩ := il2 fr hm
            exact ⟨fr0, by simp [RangeTree.ranges, List.mem_cons,
              List.mem_append, hm0], h1, h2, h3⟩
          · obtain ⟨fr0, hm0, h1, h2, h3⟩ := ir2 fr hm
            exact ⟨fr0, by simp [RangeTree.ranges, List.mem_cons,
              List.mem_append, hm0], h1, h2, h3⟩
      · intro id
        simp only [RangeTree.cov, Finset.mem_union, Finset.mem_Icc, il3, ir3]
        constructor
        · rintro ((h | h) | h)
          · exact ⟨Or.inl (Or.inl ⟨by omega, h.2⟩), by omega⟩
          · exact ⟨Or.inl (Or.inr h.1), h.2⟩
          · exact ⟨Or.inr h.1, h.2⟩
        · rintro ⟨(h | h) | h, h2⟩
          · exact Or.inl (Or.inl ⟨by omega, h.2⟩)
          · exact Or.inl (Or.inr ⟨h, h2⟩)
          · exact Or.inr ⟨h, h2⟩

theorem fuse_with_left {s range : FoodRange} (h : range.upper < s.lower) :
    s.fuse_with range = .left range := by
  simp [FoodRange.fuse_with, h]

theorem fuse_with_right {s range : FoodRange} (h1 : ¬range.upper < s.lower)
    (h2 : s.upper < range.lower) : s.fuse_with range = .right range := by
  simp [FoodRange.fuse_with, h1, h2]

theorem fuse_with_fused {s range : FoodRange} (h1 : ¬range.upper < s.lower)
    (h2 : ¬s.upper < range.lower) :
    s.fuse_with range
      = .fused ⟨min s.lower range.lower, max s.upper range.upper⟩ := by
  simp [FoodRange.fuse_with, h1, h2]

theorem mem_ranges_node {v fr : FoodRange} {l r : RangeTree} :
    fr ∈ (RangeTree.node v l r).ranges ↔
      fr = v ∨ fr ∈ l.ranges ∨ fr ∈ r.ranges := by
  simp [RangeTree.ranges]

/-- Effect of one `insert` on a well-formed bounded tree: the invariant
and the bounds are preserved, stored ranges stay inside any enclosing
strict bounds, and the covered set grows by exactly the inserted
interval. -/
theorem insert_spec (t : RangeTree) : ∀ (range : FoodRange), t.Inv →
    (∀ fr ∈ t.ranges, fr.InB) → range.lower ≤ range.upper → range.InB →
    (t.insert range).Inv ∧
    (∀ fr ∈ (t.insert range).ranges, fr.InB) ∧
    (∀ B, (∀ fr ∈ t.ranges, fr.upper < B) → range.upper < B →
      ∀ fr ∈ (t.insert range).ranges, fr.upper < B) ∧
    (∀ B, (∀ fr ∈ t.ranges, B < fr.lower) → B < range.lower →
      ∀ fr ∈ (t.insert range).ranges, B < fr.lower) ∧
    (∀ id, id ∈ (t.insert range).cov ↔
      id ∈ t.cov ∨ (range.lower ≤ id ∧ id ≤ range.upper)) := by
  induction t with
  | leaf =>
    intro range _ _ hwf hB
    refine ⟨⟨hwf, by simp [RangeTree.ranges], by simp [RangeTree.ranges],
      trivial, trivial⟩, ?_, ?_, ?_, ?_⟩
    · intro fr hfr
      simp only [RangeTree.insert, RangeTree.ranges, List.append_nil,
        List.mem_singleton] at hfr
      exact hfr ▸ hB
    · intro B _ hrB fr hfr
      simp only [RangeTree.insert, RangeTree.ranges, List.append_nil,
        List.mem_singleton] at hfr
      exact hfr ▸ hrB
    · intro B _ hrB fr hfr
      simp only [RangeTree.insert, RangeTree.ranges, List.append_nil,
        List.mem_singleton] at hfr
      exact hfr ▸ hrB
    · intro id
      simp [RangeTree.insert, RangeTree.cov, Finset.mem_Icc]
  | node v l r ihl ihr =>
    intro range hinv hIB hwf hB
    obtain ⟨hvwf, hlb, hrb, hlinv, hrinv⟩ := hinv
    have hvmem : v ∈ (RangeTree.node v l r).ranges := by
      simp [RangeTree.ranges]
    have hlmem : ∀ fr ∈ l.ranges, fr ∈ (RangeTree.node v l r).ranges := by
      intro fr h
      simp [RangeTree.ranges, h]
    have hrmem : ∀ fr ∈ r.ranges, fr ∈ (RangeTree.node v l r).ranges := by
      intro fr h
      simp [RangeTree.ranges, h]
    have hlIB : ∀ fr ∈ l.ranges, fr.InB := fun fr h => hIB fr (hlmem fr h)
    have hrIB : ∀ fr ∈ r.ranges, fr.InB := fun fr h => hIB fr (hrmem fr h)
    have hvIB : v.InB := hIB v hvmem
    by_cases hL : range.upper < v.lower
    · have heq : (RangeTree.node v l r).insert range
          = .node v (l.insert range) r := by
        simp [RangeTree.insert, fuse_with_left hL]
      rw [heq]
      obtain ⟨a1, a2, a3, a4, a5⟩ := ihl range hlinv hlIB hwf hB
      refine ⟨⟨hvwf, a3 v.lower hlb hL, hrb, a1, hrinv⟩, ?_, ?_, ?_, ?_⟩
      · intro fr hfr
        rcases mem_ranges_node.mp hfr with rfl | hm | hm
        · exact hvIB
        · exact a2 fr hm
        · exact hrIB fr hm
      · intro B hall hrB fr hfr
        rcases mem_ranges_node.mp hfr with rfl | hm | hm
        · exact hall _ hvmem
        · exact a3 B (fun fr0 h0 => hall fr0 (hlmem fr0 h0)) hrB fr hm
        · exact hall fr (hrmem fr hm)
      · intro B hall hrB fr hfr
        rcases mem_ranges_node.mp hfr with rfl | hm | hm
        · exact hall _ hvmem
        · exact a4 B (fun fr0 h0 => hall fr0 (hlmem fr0 h0)) hrB fr hm
        · exact hall fr (hrmem fr hm)
      · intro id
        simp only [RangeTree.cov, Finset.mem_union, a5]
        tauto
    · by_cases hR : v.upper < range.lower
      · have heq : (RangeTree.node v l r).insert range
            = .node v l (r.insert range) := by
          simp [RangeTree.insert, fuse_with_right hL hR]
        rw [heq]
        obtain ⟨a1, a2, a3, a4, a5⟩ := ihr range hrinv hrIB hwf hB
        refine ⟨⟨hvwf, hlb, a4 v.upper hrb hR, hlinv, a1⟩, ?_, ?_, ?_, ?_⟩
        · intro fr hfr
          rcases mem_ranges_node.mp hfr with rfl | hm | hm
          · exact hvIB
          · exact hlIB fr hm
          · exact a2 fr hm
        · intro B hall hrB fr hfr
          rcases mem_ranges_node.mp hfr with rfl | hm | hm
          · exact hall _ hvmem
          · exact hall fr (hlmem fr hm)
          · exact a3 B (fun fr0 h0 => hall fr0 (hrmem fr0 h0)) hrB fr hm
        · intro B hall hrB fr hfr
          rcases mem_ranges_node.mp hfr with rfl | hm | hm
          · exact hall _ hvmem
          · exact hall fr (hlmem fr hm)
          · exact a4 B (fun fr0 h0 => hall fr0 (hrmem fr0 h0)) hrB fr hm
        · intro id
          simp only [RangeTree.cov, Finset.mem_union, a5]
          tauto
      · have heq : (RangeTree.node v l r).insert range
            = .node ⟨min v.lower range.lower, max v.upper range.upper⟩
              (l.push_new_lower (min v.lower range.lower))
              (r.push_new_upper (max v.upper range.upper)) := by
          simp [RangeTree.insert, fuse_with_fused hL hR]
        rw [heq]
        have hnl : 1 ≤ min v.lower range.lower := by
          have := hvIB.1
          have := hB.1
          omega
        have hnu : max v.upper range.upper ≤ U64MAX - 1 := by
          have := hvIB.2
          have := hB.2
          omega
        obtain ⟨p1, p2, p3⟩ := push_new_lower_spec l _ hlinv hnl
        obtain ⟨q1, q2, q3⟩ := push_new_upper_spec r _ hrinv hnu
        refine ⟨⟨by simp only; omega, ?_, ?_, p1, q1⟩, ?_, ?_, ?_, ?_⟩
        · intro fr hfr
          obtain ⟨fr0, _, _, _, h3⟩ := p2 fr hfr
          simpa using h3
        · intro fr hfr
          obtain ⟨fr0, _, _, _, h3⟩ := q2 fr hfr
          simpa using h3
        · intro fr hfr
          rcases mem_ranges_node.mp hfr with rfl | hm | hm
          · exact ⟨hnl, hnu⟩
          · obtain ⟨fr0, hm0, h1, h2, _⟩ := p2 fr hm
            have := hlIB fr0 hm0
            exact ⟨h1 ▸ this.1, le_trans h2 this.2⟩
          · obtain ⟨fr0, hm0, h1, h2, _⟩ := q2 fr hm
            have := hrIB fr0 hm0
            exact ⟨le_trans this.1 h2, h1 ▸ this.2⟩
        · intro B hall hrB fr hfr
          have hvB := hall v hvmem
          rcases mem_ranges_node.mp hfr with rfl | hm | hm
          · simp only
            omega
          · obtain ⟨fr0, hm0, _, h2, _⟩ := p2 fr hm
            exact lt_of_le_of_lt h2 (hall fr0 (hlmem fr0 hm0))
          · obtain ⟨fr0, hm0, h1, _, _⟩ := q2 fr hm
            exact h1 ▸ hall fr0 (hrmem fr0 hm0)
        · intro B hall hrB fr hfr
          have hvB := hall v hvmem
          rcases mem_ranges_node.mp hfr with rfl | hm | hm
          · simp only
            omega
          · obtain ⟨fr0, hm0, h1, _, _⟩ := p2 fr hm
            exact h1 ▸ hall fr0 (hlmem fr0 hm0)
          · obtain ⟨fr0, hm0, _, h2, _⟩ := q2 fr hm
            exact lt_of_lt_of_le (hall fr0 (hrmem fr0 hm0)) h2
        · intro id
          simp only [RangeTree.cov, Finset.mem_union, Finset.mem_Icc, p3, q3]
          simp only [not_lt] at hL hR
          constructor
          · rintro ((h | h) | h)
            · rcases le_or_lt id v.upper with h2 | h2
              · rcases le_or_lt v.lower id with h3 | h3
                · exact Or.inl (Or.inl (Or.inl ⟨h3, h2⟩))
                · exact Or.inr ⟨by omega, by omega⟩
              · exact Or.inr ⟨by omega, by omega⟩
            · exact Or.inl (Or.inl (Or.inr h.1))
            · exact Or.inl (Or.inr h.1)
          · rintro (((h | h) | h) | h)
            · exact Or.inl (Or.inl (by omega))
            · rcases lt_or_le id (min v.lower range.lower) with h2 | h2
              · exact Or.inl (Or.inr ⟨h, h2⟩)
              · have := cov_lt hlb h
                exact Or.inl (Or.inl (by omega))
            · rcases lt_or_le (max v.upper range.upper) id with h2 | h2
              · exact Or.inr ⟨h, h2⟩
              · have := cov_gt hrb h
                exact Or.inl (Or.inl (by omega))
            · exact Or.inl (Or.inl (by omega))

/-- Under the search-ordering invariant the stored ranges are pairwise
disjoint, so `size` (the sum of the range sizes) is the number of
distinct covered integers. -/
theorem size_eq_card (t : RangeTree) (hinv : t.Inv) : t.size = t.cov.card := by
  induction t with
  | leaf => simp [RangeTree.size, RangeTree.cov]
  | node v l r ihl ihr =>
    obtain ⟨hwf, hlb, hrb, hlinv, hrinv⟩ := hinv
    have d1 : Disjoint (Finset.Icc v.lower v.upper) l.cov := by
      rw [Finset.disjoint_left]
      intro a ha hal
      have := cov_lt hlb hal
      have := Finset.mem_Icc.mp ha
      omega
    have d2 : Disjoint (Finset.Icc v.lower v.upper ∪ l.cov) r.cov := by
      rw [Finset.disjoint_left]
      intro a ha har
      have hgt := cov_gt hrb har
      rcases Finset.mem_union.mp ha with h | h
      · have := Finset.mem_Icc.mp h
        omega
      · have := cov_lt hlb h
        omega
    show v.size + l.size + r.size = _
    rw [RangeTree.cov, Finset.card_union_of_disjoint d2,
      Finset.card_union_of_disjoint d1, ihl hlinv, ihr hrinv, Nat.card_Icc]
    unfold FoodRange.size
    omega

/-- Under the invariant the binary-search `contains` decides membership
in the covered set. -/
theorem contains_iff_mem_cov (t : RangeTree) (hinv : t.Inv) (id : Nat) :
    t.contains id = true ↔ id ∈ t.cov := by
  induction t with
  | leaf => simp [RangeTree.contains, RangeTree.cov]
  | node v l r ihl ihr =>
    obtain ⟨hwf, hlb, hrb, hlinv, hrinv⟩ := hinv
    by_cases h1 : id < v.lower
    · have heq : (RangeTree.node v l r).contains id = l.contains id := by
        simp [RangeTree.contains, FoodRange.contains, h1]
      rw [heq, ihl hlinv]
      simp only [RangeTree.cov, Finset.mem_union, Finset.mem_Icc]
      constructor
      · exact fun h => Or.inl (Or.inr h)
      · rintro ((h | h) | h)
        · omega
        · exact h
        · have := cov_gt hrb h
          omega
    · by_cases h2 : v.upper < id
      · have heq : (RangeTree.node v l r).contains id = r.contains id := by
          simp [RangeTree.contains, FoodRange.contains, h1, h2]
        rw [heq, ihr hrinv]
        simp only [RangeTree.cov, Finset.mem_union, Finset.mem_Icc]
        constructor
        · exact fun h => Or.inr h
        · rintro ((h | h) | h)
          · omega
          · have := cov_lt hlb h
            omega
          · exact h
      · have heq : (RangeTree.node v l r).contains id = true := by
          simp [RangeTree.contains, FoodRange.contains, h1, h2]
        rw [heq]
        simp only [RangeTree.cov, Finset.mem_union, Finset.mem_Icc, true_iff]
        exact Or.inl (Or.inl ⟨by omega, by omega⟩)

/-- Folding `insert` over a list of well-formed, bounded ranges keeps the
invariant and the bounds, and covers exactly the union. -/
theorem foldl_insert_spec (rs : List FoodRange) :
    ∀ (t : RangeTree), t.Inv → (∀ fr ∈ t.ranges, fr.InB) →
      (∀ fr ∈ rs, fr.lower ≤ fr.upper ∧ fr.InB) →
      (rs.foldl RangeTree.insert t).Inv ∧
      (∀ fr ∈ (rs.foldl RangeTree.insert t).ranges, fr.InB) ∧
      (∀ id, id ∈ (rs.foldl RangeTree.insert t).cov ↔
        id ∈ t.cov ∨ ∃ fr ∈ rs, fr.lower ≤ id ∧ id ≤ fr.upper) := by
  induction rs with
  | nil =>
    intro t h1 h2 _
    refine ⟨h1, h2, ?_⟩
    intro id
    simp
  | cons range rest ih =>
    intro t h1 h2 hall
    have hr := hall range (List.mem_cons_self range rest)
    obtain ⟨a1, a2, _, _, a5⟩ := insert_spec t range h1 h2 hr.1 hr.2
    rw [List.foldl_cons]
    obtain ⟨b1, b2, b3⟩ := ih (t.insert range) a1 a2
      (fun fr h => hall fr (List.mem_cons_of_mem range h))
    refine ⟨b1, b2, ?_⟩
    intro id
    rw [b3 id, a5 id]
    simp only [List.mem_cons]
    constructor
    · rintro ((h | h) | ⟨fr, hm, hb⟩)
      · exact Or.inl h
      · exact Or.inr ⟨range, Or.inl rfl, h⟩
      · exact Or.inr ⟨fr, Or.inr hm, hb⟩
    · rintro (h | ⟨fr, rfl | hm, hb⟩)
      · exact Or.inl (Or.inl h)
      · exact Or.inl (Or.inr hb)
      · exact Or.inr ⟨fr, hm, hb⟩

/-- The union of the inserted ranges, as written in claim C1 ("the union
of all inserted ranges"), as a finite set. -/
def rangesUnion (rs : List FoodRange) : Finset Nat :=
  rs.foldr (fun fr s => Finset.Icc fr.lower fr.upper ∪ s) ∅

theorem mem_rangesUnion (rs : List FoodRange) (id : Nat) :
    id ∈ rangesUnion rs ↔ ∃ fr ∈ rs, fr.lower ≤ id ∧ id ≤ fr.upper := by
  induction rs with
  | nil => simp [rangesUnion]
  | cons fr rest ih =>
    simp only [rangesUnion, List.foldr_cons, Finset.mem_union, Finset.mem_Icc,
      List.mem_cons]
    rw [show rest.foldr (fun fr s => Finset.Icc fr.lower fr.upper ∪ s) ∅
      = rangesUnion rest from rfl, ih]
    constructor
    · rintro (h | ⟨fr2, hm, hb⟩)
      · exact ⟨fr, Or.inl rfl, h⟩
      · exact ⟨fr2, Or.inr hm, hb⟩
    · rintro ⟨fr2, rfl | hm, hb⟩
      · exact Or.inl hb
      · exact Or.inr ⟨fr2, hm, hb⟩

/-- Disjointness consequence of the invariant, the parenthetical of
claim C7. -/
theorem inv_pairwise_disjoint (t : RangeTree) (hinv : t.Inv) :
    ∀ fr1 ∈ t.ranges, ∀ fr2 ∈ t.ranges, fr1 ≠ fr2 →
      fr1.upper < fr2.lower ∨ fr2.upper < fr1.lower := by
  induction t with
  | leaf => simp [RangeTree.ranges]
  | node v l r ihl ihr =>
    obtain ⟨hwf, hlb, hrb, hlinv, hrinv⟩ := hinv
    intro fr1 h1 fr2 h2 hne
    rcases mem_ranges_node.mp h1 with rfl | hm1 | hm1 <;>
      rcases mem_ranges_node.mp h2 with rfl | hm2 | hm2
    · exact absurd rfl hne
    · exact Or.inr (hlb fr2 hm2)
    · exact Or.inl (hrb fr2 hm2)
    · exact Or.inl (hlb fr1 hm1)
    · exact ihl hlinv fr1 hm1 fr2 hm2 hne
    · exact Or.inl (lt_of_lt_of_le (hlb fr1 hm1) (le_trans hwf (le_of_lt (hrb fr2 hm2))))
    · exact Or.inr (hrb fr1 hm1)
    · exact Or.inr (lt_of_lt_of_le (hlb fr2 hm2) (le_trans hwf (le_of_lt (hrb fr1 hm1))))
    · exact ihr hrinv fr1 hm1 fr2 hm2 hne

end Day5

/-- Claim C1 as stated is false: with the saturating arithmetic of
`adapt_new_lower`, inserting `[5,10]`, `[0,2]`, `[0,7]` (all with
`lower <= upper`) leaves a stale `[0,0]` node under the fused `[0,10]`
root, so `size()` returns 12 although the union of the inserted ranges
has only 11 distinct integers. -/
theorem c1_counterexample :
    (∀ fr ∈ ([⟨5, 10⟩, ⟨0, 2⟩, ⟨0, 7⟩] : List Day5.FoodRange),
      fr.lower ≤ fr.upper) ∧
    (Day5.insertAll [⟨5, 10⟩, ⟨0, 2⟩, ⟨0, 7⟩]).size = 12 ∧
    (Day5.rangesUnion [⟨5, 10⟩, ⟨0, 2⟩, ⟨0, 7⟩]).card = 11 := by
  refine ⟨by decide, by decide, by decide⟩

/-- Claim C1 amended: for ranges whose bounds lie in
`[1, u64::MAX - 1]` (so that the saturating `-1`/`+1` steps are exact),
the tree represents exactly the union of the inserted ranges —
`contains` answers membership in the union and `size` is the number of
distinct covered integers. -/
theorem c1_day5_tree_amended (rs : List Day5.FoodRange)
    (hwf : ∀ fr ∈ rs, fr.lower ≤ fr.upper)
    (hb : ∀ fr ∈ rs, 1 ≤ fr.lower ∧ fr.upper ≤ 2 ^ 64 - 2) :
    (∀ id, (Day5.insertAll rs).contains id = true ↔
      ∃ fr ∈ rs, fr.lower ≤ id ∧ id ≤ fr.upper) ∧
    (Day5.insertAll rs).size = (Day5.rangesUnion rs).card := by
  have hall : ∀ fr ∈ rs, fr.lower ≤ fr.upper ∧ fr.InB := by
    intro fr h
    obtain ⟨hb1, hb2⟩ := hb fr h
    exact ⟨hwf fr h, hb1, by unfold Day5.U64MAX; omega⟩
  obtain ⟨h1, _, h3⟩ := Day5.foldl_insert_spec rs .leaf trivial
    (by simp [Day5.RangeTree.ranges]) hall
  have h1' : (Day5.insertAll rs).Inv := h1
  have hcov : (Day5.insertAll rs).cov = Day5.rangesUnion rs := by
    apply Finset.ext
    intro id
    rw [Day5.mem_rangesUnion]
    have := h3 id
    simp only [Day5.RangeTree.cov, Finset.not_mem_empty, false_or] at this
    exact this
  constructor
  · intro id
    rw [Day5.contains_iff_mem_cov _ h1', hcov, Day5.mem_rangesUnion]
  · rw [Day5.size_eq_card _ h1', hcov]

/-- Witness for the amended C1 on the ranges `[1,3]`, `[11,13]`. -/
theorem c1_witness :
    (Day5.insertAll [⟨1, 3⟩, ⟨11, 13⟩]).contains 12 = true :=
  ((c1_day5_tree_amended [⟨1, 3⟩, ⟨11, 13⟩] (by decide)
      (by norm_num)).1 12).mpr ⟨⟨11, 13⟩, by decide, by decide⟩

/-- Claim C7 as stated is false: inserting `[6,11]`, `[0,3]`, `[0,8]`
(all with `lower <= upper`) produces a root `[0,11]` whose left child
still stores `[0,0]` — its upper bound is not strictly below the root's
lower bound (the `saturating_sub(1)` at `new_lower = 0` keeps the stale
node alive). -/
theorem c7_counterexample :
    (∀ fr ∈ ([⟨6, 11⟩, ⟨0, 3⟩, ⟨0, 8⟩] : List Day5.FoodRange),
      fr.lower ≤ fr.upper) ∧
    ¬(Day5.insertAll [⟨6, 11⟩, ⟨0, 3⟩, ⟨0, 8⟩]).Inv := by
  refine ⟨by decide, by decide⟩

/-- Claim C7 amended: for inserted ranges whose bounds lie in
`[1, u64::MAX - 1]`, after any sequence of inserts every node's left
subtree stores only ranges ending strictly before the node's range and
every right subtree only ranges starting strictly after it, so all
stored ranges are pairwise disjoint. -/
theorem c7_day5_invariant_amended (rs : List Day5.FoodRange)
    (hwf : ∀ fr ∈ rs, fr.lower ≤ fr.upper)
    (hb : ∀ fr ∈ rs, 1 ≤ fr.lower ∧ fr.upper ≤ 2 ^ 64 - 2) :
    (Day5.insertAll rs).Inv ∧
    (∀ fr1 ∈ (Day5.insertAll rs).ranges, ∀ fr2 ∈ (Day5.insertAll rs).ranges,
      fr1 ≠ fr2 → fr1.upper < fr2.lower ∨ fr2.upper < fr1.lower) := by
  have hall : ∀ fr ∈ rs, fr.lower ≤ fr.upper ∧ fr.InB := by
    intro fr h
    obtain ⟨hb1, hb2⟩ := hb fr h
    exact ⟨hwf fr h, hb1, by unfold Day5.U64MAX; omega⟩
  obtain ⟨h1, _, _⟩ := Day5.foldl_insert_spec rs .leaf trivial
    (by simp [Day5.RangeTree.ranges]) hall
  exact ⟨h1, Day5.inv_pairwise_disjoint _ h1⟩

/-- Witness for the amended C7 on the ranges `[1,3]`, `[11,13]`, `[5,10]`. -/
theorem c7_witness :
    (Day5.insertAll [⟨1, 3⟩, ⟨11, 13⟩, ⟨5, 10⟩]).Inv :=
  (c7_day5_invariant_amended [⟨1, 3⟩, ⟨11, 13⟩, ⟨5, 10⟩] (by decide)
    (by norm_num)).1

namespace Day3

/-- State of day 3 `VoltageLoop` (src/aoc-2025-3/src/main.rs): the
`values` vector of optional digits; the `size` field always equals
`values.len()` (the vector is created as `vec![None; size]` and every
operation preserves its length). -/
abbrev VL := List (Option Nat)

/-- Clearing the slots after a written index
(`for rem_index in index + 1..self.size { self.values[rem_index] = None }`). -/
def clearAll (rest : VL) : VL := rest.map (fun _ => none)

/-- Scan of `VoltageLoop::update` starting at `start_index`: the first
`locked` slots are skipped, then the first slot that is empty or holds a
smaller digit is overwritten and the slots after it are cleared; when no
slot qualifies the state is unchanged. -/
def updAux : VL → Nat → Nat → VL
  | [], _, _ => []
  | v :: rest, digit, locked + 1 => v :: updAux rest digit locked
  | v :: rest, digit, 0 =>
    match v with
    | none => some digit :: clearAll rest
    | some x =>
      if x < digit then some digit :: clearAll rest else v :: updAux rest digit 0

/-- Embedding of `VoltageLoop::update(digit, remaining_digits)`:
`start_index = size.saturating_sub(remaining_digits)` is `Nat`
subtraction. -/
def update (values : VL) (digit : Nat) (remaining : Nat) : VL :=
  updAux values digit (values.length - remaining)

/-- Embedding of the `expect`-mapping in `VoltageLoop::get_valueN`:
collect all digits, failing if any slot is unfilled. -/
def getDigits : VL → Option (List Nat)
  | [] => some []
  | none :: _ => none
  | some v :: rest => (getDigits rest).map (fun ds => v :: ds)

/-- Ideal (overflow-free) value of the decimal fold of
`VoltageLoop::get_value` (`fold(0, |acc, val| acc * 10 + val)` as if over
unbounded integers): the number whose decimal digits are `ds`.  The
faithful `u64` fold `digitsVal` below agrees with it exactly when the
result fits in a `u64` (at most 19 digits). -/
def digitsValN (ds : List Nat) : Nat := ds.foldl (fun acc val => acc * 10 + val) 0

/-- The ideal counterpart of `get_value` below, collecting the digits and
taking their overflow-free value; `none` models the
`expect("value should be filled")` panic. -/
def get_valueN (values : VL) : Option Nat := (getDigits values).map digitsValN

/-- The enumerated fold of `compute_voltage`: each digit is processed
with `remaining_digits = length - index`, so the counter starts at the
line length and decreases by one per step. -/
def cvFold : List Nat → VL → Nat → VL
  | [], values, _ => values
  | d :: ds, values, rem => cvFold ds (update values d rem) (rem - 1)

/-- `compute_voltage` with the ideal overflow-free final fold; the
faithful `compute_voltage` below agrees with it whenever `size ≤ 19`. -/
def compute_voltageN (battery_line : List Nat) (size : Nat) : Option Nat :=
  get_valueN (cvFold battery_line (List.replicate size none) battery_line.length)

/-- `2^64`, the modulus of wrapping `u64` arithmetic. -/
def U64 : Nat := 2 ^ 64

/-- Embedding of the decimal fold of `VoltageLoop::get_value`
(`fold(0, |acc, val| acc * 10 + val)` over `u64`): in release profile
each `u64` operation wraps, i.e. is performed modulo `2^64`. -/
def digitsVal (ds : List Nat) : Nat :=
  ds.foldl (fun acc val => (acc * 10 + val) % U64) 0

/-- Embedding of `VoltageLoop::get_value`; `none` models the
`expect("value should be filled")` panic. -/
def get_value (values : VL) : Option Nat := (getDigits values).map digitsVal

/-- Embedding of day 3 `compute_voltage` (lines 75-86). -/
def compute_voltage (battery_line : List Nat) (size : Nat) : Option Nat :=
  get_value (cvFold battery_line (List.replicate size none) battery_line.length)

/-- First index of a value in a list (0 when absent at the end). -/
def firstIdxOf : List Nat → Nat → Nat
  | [], _ => 0
  | x :: rest, a => if x = a then 0 else firstIdxOf rest a + 1

/-- Maximum of a list of digits. -/
def maxD (l : List Nat) : Nat := l.foldr max 0

theorem clearAll_length (rest : VL) : (clearAll rest).length = rest.length := by
  simp [clearAll]

theorem clearAll_eq_replicate (rest : VL) :
    clearAll rest = List.replicate rest.length none := by
  induction rest with
  | nil => rfl
  | cons v t ih =>
    simp only [clearAll, List.map_cons, List.length_cons, List.replicate_succ]
    rw [show List.map (fun _ => (none : Option Nat)) t = clearAll t from rfl, ih]

theorem updAux_length (values : VL) : ∀ (digit locked : Nat),
    (updAux values digit locked).length = values.length := by
  induction values with
  | nil => intro d locked; rfl
  | cons v t ih =>
    intro d locked
    match locked with
    | locked + 1 => simp [updAux, ih]
    | 0 =>
      match v with
      | none => simp [updAux, clearAll_length]
      | some x =>
        by_cases h : x < d <;> simp [updAux, h, clearAll_length, ih]

theorem update_length (values : VL) (digit remaining : Nat) :
    (update values digit remaining).length = values.length := by
  simp [update, updAux_length]

theorem cvFold_length (ds : List Nat) : ∀ (values : VL) (rem : Nat),
    (cvFold ds values rem).length = values.length := by
  induction ds with
  | nil => intro values rem; rfl
  | cons d t ih => intro values rem; simp [cvFold, ih, update_length]

theorem getDigits_length {values : VL} : ∀ {ds : List Nat},
    getDigits values = some ds → ds.length = values.length := by
  induction values with
  | nil =>
    intro ds h
    simp [getDigits] at h
    simp [← h]
  | cons v t ih =>
    intro ds h
    match v with
    | none => simp [getDigits] at h
    | some x =>
      simp only [getDigits, Option.map_eq_some'] at h
      obtain ⟨ds0, h0, rfl⟩ := h
      simp [ih h0]

theorem get_valueN_cons_some {st : VL} {R : Nat} (M : Nat)
    (h : get_valueN st = some R) :
    get_valueN (some M :: st) = some (M * 10 ^ st.length + R) := by
  unfold get_valueN at h ⊢
  obtain ⟨ds, hds, rfl⟩ := Option.map_eq_some'.mp h
  rw [show getDigits (some M :: st) = (getDigits st).map (fun ds => M :: ds)
    from rfl, hds]
  simp only [Option.map_some']
  congr 1
  have hlen := getDigits_length hds
  unfold digitsValN
  rw [List.foldl_cons]
  have hacc : ∀ (l : List Nat) (acc : Nat),
      l.foldl (fun acc val => acc * 10 + val) acc
        = acc * 10 ^ l.length + l.foldl (fun acc val => acc * 10 + val) 0 := by
    intro l
    induction l with
    | nil => intro acc; simp
    | cons d t ih2 =>
      intro acc
      rw [List.foldl_cons, ih2 (acc * 10 + d), List.foldl_cons,
        ih2 (0 * 10 + d), List.length_cons]
      ring
  rw [hacc _ (0 * 10 + M), hlen]
  ring_nf

theorem getDigits_map_some (ds : List Nat) : getDigits (ds.map some) = some ds := by
  induction ds with
  | nil => rfl
  | cons x t ih => simp [getDigits, ih]

theorem digitsValN_cons (d : Nat) (ds : List Nat) :
    digitsValN (d :: ds) = d * 10 ^ ds.length + digitsValN ds := by
  have h := @get_valueN_cons_some (ds.map some) (digitsValN ds) d
  have hg : getDigits (ds.map some) = some ds := getDigits_map_some ds
  have hv : get_valueN (ds.map some) = some (digitsValN ds) := by
    unfold get_valueN
    rw [hg]
    rfl
  have h2 := h hv
  unfold get_valueN at h2
  rw [show getDigits (some d :: ds.map some)
    = (getDigits (ds.map some)).map (fun l => d :: l) from rfl, hg] at h2
  simp only [Option.map_some', Option.some_inj] at h2
  simpa [List.length_map] using h2

theorem digitsValN_lt {ds : List Nat} (h : ∀ d ∈ ds, d < 10) :
    digitsValN ds < 10 ^ ds.length := by
  induction ds with
  | nil => simp [digitsValN]
  | cons d t ih =>
    rw [digitsValN_cons, List.length_cons, pow_succ]
    have h1 : d < 10 := h d (List.mem_cons_self d t)
    have h2 : digitsValN t < 10 ^ t.length :=
      ih (fun x hx => h x (List.mem_cons_of_mem d hx))
    calc d * 10 ^ t.length + digitsValN t
        < d * 10 ^ t.length + 10 ^ t.length := by omega
      _ = (d + 1) * 10 ^ t.length := by ring
      _ ≤ 10 * 10 ^ t.length := Nat.mul_le_mul_right _ (by omega)
      _ = 10 ^ t.length * 10 := by ring

theorem le_maxD {l : List Nat} {x : Nat} (h : x ∈ l) : x ≤ maxD l := by
  induction l with
  | nil => simp at h
  | cons a t ih =>
    rcases List.mem_cons.mp h with rfl | h2
    · simp [maxD]
    · have := ih h2
      simp only [maxD, List.foldr_cons] at this ⊢
      omega

theorem foldr_max_init (l : List Nat) : ∀ (a b : Nat),
    l.foldr max (max a b) = max a (l.foldr max b) := by
  induction l with
  | nil => intro a b; rfl
  | cons x t ih =>
    intro a b
    simp only [List.foldr_cons, ih a b]
    omega

theorem firstIdxOf_lt_length {l : List Nat} {a : Nat} (h : a ∈ l) :
    firstIdxOf l a < l.length := by
  induction l with
  | nil => simp at h
  | cons x t ih =>
    by_cases hx : x = a
    · simp [firstIdxOf, hx]
    · rcases List.mem_cons.mp h with rfl | h2
      · exact absurd rfl hx
      · simp only [firstIdxOf, hx, if_false, List.length_cons]
        exact Nat.succ_lt_succ (ih h2)

theorem firstIdxOf_get {l : List Nat} {a : Nat} (h : a ∈ l) :
    l.get ⟨firstIdxOf l a, firstIdxOf_lt_length h⟩ = a := by
  induction l with
  | nil => simp at h
  | cons x t ih =>
    by_cases hx : x = a
    · simp [firstIdxOf, hx]
    · rcases List.mem_cons.mp h with rfl | h2
      · exact absurd rfl hx
      · simp only [firstIdxOf, hx, if_false]
        exact ih h2

theorem firstIdxOf_le {l : List Nat} {a : Nat} :
    ∀ {j : Nat} (hj : j < l.length), l.get ⟨j, hj⟩ = a → firstIdxOf l a ≤ j := by
  induction l with
  | nil => intro j hj; simp at hj
  | cons x t ih =>
    intro j hj hget
    by_cases hx : x = a
    · simp [firstIdxOf, hx]
    · match j with
      | 0 => exact absurd hget hx
      | j + 1 =>
        simp only [firstIdxOf, hx, if_false]
        exact Nat.succ_le_succ (ih (Nat.lt_of_succ_lt_succ hj) hget)

theorem maxD_mem {l : List Nat} (h : l ≠ []) : maxD l ∈ l := by
  induction l with
  | nil => exact absurd rfl h
  | cons x t ih =>
    match t with
    | [] => simp [maxD]
    | y :: t2 =>
      rcases Nat.le_total (maxD (y :: t2)) x with h2 | h2
      · have : maxD (x :: y :: t2) = x := by
          simp only [maxD, List.foldr_cons] at h2 ⊢
          omega
        rw [this]
        exact List.mem_cons_self _ _
      · have : maxD (x :: y :: t2) = maxD (y :: t2) := by
          simp only [maxD, List.foldr_cons] at h2 ⊢
          omega
        rw [this]
        exact List.mem_cons_of_mem x (ih (by simp))

theorem foldr_max_lt {M : Nat} (l : List Nat) : ∀ (a : Nat), a < M →
    (∀ x ∈ l, x < M) → l.foldr max a < M := by
  induction l with
  | nil => intro a ha _; exact ha
  | cons x t ih =>
    intro a ha hall
    simp only [List.foldr_cons]
    have h1 := hall x (List.mem_cons_self x t)
    have h2 := ih a ha (fun y hy => hall y (List.mem_cons_of_mem x hy))
    omega

/-- Simulation lemma: while every step whose slot window reaches the head
carries a digit at most `M`, the head `some M` survives and the fold acts
on the tail exactly like the sub-loop one size smaller. -/
theorem cvFold_cons_sim (B : List Nat) : ∀ (M : Nat) (σ : VL) (rem : Nat),
    (∀ i (hi : i < B.length), σ.length + 1 ≤ rem - i → B.get ⟨i, hi⟩ ≤ M) →
    cvFold B (some M :: σ) rem = some M :: cvFold B σ rem := by
  induction B with
  | nil => intro M σ rem _; rfl
  | cons d B' ih =>
    intro M σ rem h
    have hupd : update (some M :: σ) d rem = some M :: update σ d rem := by
      unfold update
      simp only [List.length_cons]
      by_cases hr : σ.length + 1 ≤ rem
      · have hdm : d ≤ M := h 0 (by simp) (by simpa using hr)
        rw [show σ.length + 1 - rem = 0 from by omega,
          show σ.length - rem = 0 from by omega]
        simp [updAux, show ¬M < d from by omega]
      · rw [show σ.length + 1 - rem = (σ.length - rem) + 1 from by omega]
        rfl
    show cvFold B' (update (some M :: σ) d rem) (rem - 1)
      = some M :: cvFold B' (update σ d rem) (rem - 1)
    rw [hupd]
    apply ih
    intro i hi hcond
    have hlen : (update σ d rem).length = σ.length := update_length σ d rem
    have := h (i + 1) (by simpa using Nat.succ_lt_succ hi)
      (by rw [hlen] at hcond; omega)
    simpa using this

/-- While the scan always starts at the head (no slot locked), the head
slot holds the running maximum of the processed digits. -/
theorem cvFold_head_max (A : List Nat) : ∀ (m : Nat) (σ : VL) (rem : Nat),
    (∀ i < A.length, σ.length + 1 ≤ rem - i) →
    ∃ σ2, cvFold A (some m :: σ) rem = some (A.foldr max m) :: σ2 ∧
      σ2.length = σ.length := by
  induction A with
  | nil => intro m σ rem _; exact ⟨σ, rfl, rfl⟩
  | cons d A' ih =>
    intro m σ rem h
    have h0 : σ.length + 1 ≤ rem := by simpa using h 0 (by simp)
    have hupd : update (some m :: σ) d rem
        = some (max m d) :: (if m < d then clearAll σ else updAux σ d 0) := by
      unfold update
      simp only [List.length_cons]
      rw [show σ.length + 1 - rem = 0 from by omega]
      by_cases hmd : m < d
      · simp [updAux, hmd, max_eq_right (le_of_lt hmd)]
      · have hdm : d ≤ m := by omega
        simp [updAux, hmd, max_eq_left hdm]
    have hσlen : (if m < d then clearAll σ else updAux σ d 0).length = σ.length := by
      by_cases hmd : m < d <;> simp [hmd, clearAll_length, updAux_length]
    obtain ⟨σ2, heq, hlen⟩ := ih (max m d)
      (if m < d then clearAll σ else updAux σ d 0) (rem - 1)
      (by
        intro i hi
        rw [hσlen]
        have := h (i + 1) (by simpa using Nat.succ_lt_succ hi)
        omega)
    refine ⟨σ2, ?_, hlen.trans hσlen⟩
    show cvFold A' (update (some m :: σ) d rem) (rem - 1) = _
    rw [hupd, heq]
    congr 2
    show A'.foldr max (max m d) = max d (A'.foldr max m)
    rw [max_comm m d, foldr_max_init]

/-- First write into an all-empty loop with no slot locked. -/
theorem update_replicate_none {k : Nat} (d rem : Nat) (hrem : k + 1 ≤ rem) :
    update (List.replicate (k + 1) none) d rem
      = some d :: List.replicate k none := by
  unfold update
  rw [List.replicate_succ]
  simp only [List.length_cons, List.length_replicate]
  rw [show k + 1 - rem = 0 from by omega]
  show some d :: clearAll (List.replicate k none) = _
  rw [clearAll_eq_replicate, List.length_replicate]

/-- Overwriting a strictly smaller head with no slot locked clears the
whole tail. -/
theorem update_overwrite {v : Nat} {σ : VL} {M rem : Nat} (hv : v < M)
    (hrem : σ.length + 1 ≤ rem) :
    update (some v :: σ) M rem = some M :: List.replicate σ.length none := by
  unfold update
  simp only [List.length_cons]
  rw [show σ.length + 1 - rem = 0 from by omega]
  show (if v < M then some M :: clearAll σ else _) = _
  rw [if_pos hv, clearAll_eq_replicate]

theorem cvFold_append (xs : List Nat) : ∀ (ys : List Nat) (v : VL) (rem : Nat),
    cvFold (xs ++ ys) v rem = cvFold ys (cvFold xs v rem) (rem - xs.length) := by
  induction xs with
  | nil => intro ys v rem; simp [cvFold]
  | cons d xs' ih =>
    intro ys v rem
    show cvFold (xs' ++ ys) (update v d rem) (rem - 1) = _
    rw [ih ys (update v d rem) (rem - 1)]
    congr 1
    simp only [List.length_cons]
    omega

theorem sublist_cons_decomp {d : Nat} {u' line : List Nat}
    (h : (d :: u').Sublist line) :
    ∃ i, ∃ hi : i < line.length,
      line.get ⟨i, hi⟩ = d ∧ u'.Sublist (line.drop (i + 1)) := by
  induction line with
  | nil => cases h
  | cons x rest ih =>
    cases h with
    | cons _ h2 =>
      obtain ⟨i, hi, hget, hsub⟩ := ih h2
      exact ⟨i + 1, Nat.succ_lt_succ hi, hget, hsub⟩
    | cons₂ _ h2 => exact ⟨0, by simp, rfl, by simpa using h2⟩

/-- State after processing a prefix of digits all strictly below `M`,
followed by the first occurrence of `M`: the head holds `M` and the tail
has been cleared. -/
theorem state_after_max (A : List Nat) (k n M : Nat)
    (hq : A.length ≤ n - (k + 1)) (hn : k + 1 ≤ n)
    (hAlt : ∀ x ∈ A, x < M) :
    update (cvFold A (List.replicate (k + 1) none) n) M (n - A.length)
      = some M :: List.replicate k none := by
  match A with
  | [] =>
    show update (List.replicate (k + 1) none) M n = _
    exact update_replicate_none M n hn
  | a :: A2 =>
    have hlenA : (a :: A2).length = A2.length + 1 := rfl
    show update (cvFold A2 (update (List.replicate (k + 1) none) a n) (n - 1))
      M (n - (a :: A2).length) = _
    rw [update_replicate_none a n hn]
    obtain ⟨σ2, heq, hlen⟩ := cvFold_head_max A2 a (List.replicate k none) (n - 1)
      (by
        intro i hi
        simp only [List.length_replicate]
        rw [hlenA] at hq
        omega)
    rw [heq]
    have hhead : A2.foldr max a < M :=
      foldr_max_lt A2 a (hAlt a (List.mem_cons_self a A2))
        (fun x hx => hAlt x (List.mem_cons_of_mem a hx))
    have hσ2 : σ2.length = k := by
      rw [hlen, List.length_replicate]
    have hq2 : A2.length + 1 ≤ n - (k + 1) := by
      rw [hlenA] at hq
      exact hq
    have hcond : σ2.length + 1 ≤ n - (a :: A2).length := by
      rw [hσ2, hlenA]
      omega
    rw [update_overwrite hhead hcond, hσ2]

/-- Full correctness of day 3 `compute_voltageN`: for `k` at most the line
length it never panics and returns the value of a maximum subsequence of
exactly `k` digits. -/
theorem compute_voltageN_max : ∀ (k : Nat) (l : List Nat), k ≤ l.length →
    (∀ d ∈ l, d < 10) →
    ∃ t, t.Sublist l ∧ t.length = k ∧
      compute_voltageN l k = some (digitsValN t) ∧
      ∀ u, u.Sublist l → u.length = k → digitsValN u ≤ digitsValN t := by
  intro k
  induction k with
  | zero =>
    intro l _ _
    have hfold : ∀ (ds : List Nat) (rem : Nat), cvFold ds ([] : VL) rem = [] := by
      intro ds
      induction ds with
      | nil => intro rem; rfl
      | cons d t ih =>
        intro rem
        show cvFold t (update [] d rem) (rem - 1) = []
        rw [show update [] d rem = [] from rfl]
        exact ih _
    refine ⟨[], List.nil_sublist l, rfl, ?_, ?_⟩
    · unfold compute_voltageN
      rw [show List.replicate 0 (none : Option Nat) = [] from rfl, hfold]
      rfl
    · intro u _ hlen
      rw [List.length_eq_zero.mp hlen]
  | succ k' ih =>
    intro l hk hd
    have hn : 1 ≤ l.length := by omega
    have hWlen : (List.take (l.length - (k' + 1) + 1) l).length
        = l.length - (k' + 1) + 1 := by
      rw [List.length_take]
      omega
    set W := List.take (l.length - (k' + 1) + 1) l with hW_def
    have hWne : W ≠ [] := by
      intro h0
      rw [h0] at hWlen
      simp at hWlen
    set M := maxD W with hM_def
    have hMW : M ∈ W := maxD_mem hWne
    have hMline : M ∈ l := (List.take_sublist _ _).subset hMW
    set q := firstIdxOf l M with hq_def
    have hqlt : q < l.length := firstIdxOf_lt_length hMline
    have hget_q : l.get ⟨q, hqlt⟩ = M := firstIdxOf_get hMline
    have hWle : ∀ j (hj : j < l.length), j ≤ l.length - (k' + 1) →
        l.get ⟨j, hj⟩ ≤ M := by
      intro j hj hjw
      apply le_maxD
      have hjW : j < W.length := by rw [hWlen]; omega
      have hWj : W.get ⟨j, hjW⟩ = l.get ⟨j, hj⟩ := by
        simp only [hW_def, List.get_eq_getElem, List.getElem_take]
      rw [← hWj]
      exact List.get_mem W j hjW
    have hq_win : q ≤ l.length - (k' + 1) := by
      obtain ⟨⟨j, hj⟩, hjget⟩ := List.mem_iff_get.mp hMW
      have hjlt : j < l.length - (k' + 1) + 1 := by rwa [hWlen] at hj
      have hj' : j < l.length := by omega
      have hjline : l.get ⟨j, hj'⟩ = M := by
        rw [← hjget]
        simp only [hW_def, List.get_eq_getElem, List.getElem_take]
      have hle := firstIdxOf_le hj' hjline
      omega
    set A := List.take q l with hA_def
    set B := List.drop (q + 1) l with hB_def
    have hAlen : A.length = q := by
      rw [hA_def, List.length_take]
      omega
    have hBlen : B.length = l.length - q - 1 := by
      rw [hB_def, List.length_drop]
      omega
    have hsplit : l = A ++ M :: B := by
      conv_lhs => rw [← List.take_append_drop q l]
      rw [hA_def, hB_def]
      congr 1
      rw [List.drop_eq_getElem_cons hqlt]
      have hQ : l[q] = M := by simpa using hget_q
      rw [hQ]
    have hAlt : ∀ x ∈ A, x < M := by
      intro x hx
      obtain ⟨⟨j, hj⟩, hjget⟩ := List.mem_iff_get.mp hx
      have hjq : j < q := by
        rw [hA_def, List.length_take] at hj
        omega
      have hj' : j < l.length := by omega
      have hxline : l.get ⟨j, hj'⟩ = x := by
        rw [← hjget]
        simp only [hA_def, List.get_eq_getElem, List.getElem_take]
      have hxle : x ≤ M := by
        rw [← hxline]
        exact hWle j hj' (by omega)
      have hxne : x ≠ M := by
        intro h0
        have := firstIdxOf_le hj' (by rw [hxline, h0])
        omega
      omega
    have hBd : ∀ d ∈ B, d < 10 := fun d hdm =>
      hd d ((List.drop_sublist _ _).subset hdm)
    have hk'B : k' ≤ B.length := by omega
    obtain ⟨t', ht1, ht2, ht3, ht4⟩ := ih B hk'B hBd
    have hstate := state_after_max A k' l.length M (by omega) hk hAlt
    have hsim : cvFold B (some M :: List.replicate k' none)
        (l.length - q - 1)
        = some M :: cvFold B (List.replicate k' none) (l.length - q - 1) := by
      apply cvFold_cons_sim
      intro i hi hcond
      simp only [List.length_replicate] at hcond
      have hiq : q + 1 + i < l.length := by omega
      have hBi : B.get ⟨i, hi⟩ = l.get ⟨q + 1 + i, hiq⟩ := by
        simp only [hB_def, List.get_eq_getElem, List.getElem_drop]
      rw [hBi]
      exact hWle (q + 1 + i) hiq (by omega)
    have hcv : compute_voltageN l (k' + 1)
        = get_valueN (some M :: cvFold B (List.replicate k' none) B.length) := by
      unfold compute_voltageN
      conv_lhs => rw [hsplit]
      rw [show (A ++ M :: B).length = l.length from by rw [← hsplit]]
      rw [cvFold_append]
      rw [show cvFold (M :: B) (cvFold A (List.replicate (k' + 1) none)
          l.length) (l.length - A.length)
        = cvFold B (update (cvFold A (List.replicate (k' + 1) none) l.length)
          M (l.length - A.length)) (l.length - A.length - 1) from rfl]
      rw [hstate, hAlen, hsim]
      rw [show l.length - q - 1 = B.length from hBlen.symm]
    have hsublen : (cvFold B (List.replicate k' none) B.length).length = k' := by
      rw [cvFold_length, List.length_replicate]
    have ht3' : get_valueN (cvFold B (List.replicate k' none) B.length)
        = some (digitsValN t') := ht3
    refine ⟨M :: t', ?_, by simp [ht2], ?_, ?_⟩
    · rw [hsplit]
      exact List.Sublist.trans (List.Sublist.cons₂ M ht1)
        (List.sublist_append_right A (M :: B))
    · rw [hcv, get_valueN_cons_some M ht3', hsublen, digitsValN_cons, ht2]
    · intro u hu hulen
      match u, hu, hulen with
      | d :: u', hu, hulen =>
        obtain ⟨i, hi, hget, hsub⟩ := sublist_cons_decomp hu
        have hu'len : u'.length = k' := by simpa using hulen
        have hu'le : u'.length ≤ (l.drop (i + 1)).length := hsub.length_le
        have hi_win : i ≤ l.length - (k' + 1) := by
          rw [List.length_drop] at hu'le
          omega
        have hdM : d ≤ M := by
          rw [← hget]
          exact hWle i hi hi_win
        have hu'd : ∀ x ∈ u', x < 10 := fun x hx =>
          hd x ((hsub.trans (List.drop_sublist _ _)).subset hx)
        rw [digitsValN_cons, digitsValN_cons, ht2, hu'len]
        by_cases hdMeq : d = M
        · have hqi : q ≤ i := firstIdxOf_le hi (by rw [hget, hdMeq])
          have hdropB : l.drop (i + 1) = B.drop (i - q) := by
            rw [hB_def, List.drop_drop]
            congr 1
            omega
          have hsubB : u'.Sublist B := (hdropB ▸ hsub).trans (List.drop_sublist _ _)
          have hle := ht4 u' hsubB hu'len
          rw [hdMeq]
          omega
        · have hdlt : d < M := by omega
          have hvu' : digitsValN u' < 10 ^ k' := by
            rw [← hu'len]
            exact digitsValN_lt hu'd
          have h1 : d * 10 ^ k' + digitsValN u' < M * 10 ^ k' := by
            calc d * 10 ^ k' + digitsValN u' < d * 10 ^ k' + 10 ^ k' := by omega
              _ = (d + 1) * 10 ^ k' := by ring
              _ ≤ M * 10 ^ k' := Nat.mul_le_mul_right _ (by omega)
          omega

theorem foldlN_ge (ds : List Nat) : ∀ acc : Nat,
    acc ≤ ds.foldl (fun a v => a * 10 + v) acc := by
  induction ds with
  | nil => intro acc; simp
  | cons d t ih =>
    intro acc
    rw [List.foldl_cons]
    exact le_trans (by omega) (ih (acc * 10 + d))

theorem foldlW_eq (ds : List Nat) : ∀ acc : Nat,
    ds.foldl (fun a v => a * 10 + v) acc < U64 →
    ds.foldl (fun a v => (a * 10 + v) % U64) acc
      = ds.foldl (fun a v => a * 10 + v) acc := by
  induction ds with
  | nil => intro acc h; rfl
  | cons d t ih =>
    intro acc h
    rw [List.foldl_cons] at h ⊢
    rw [List.foldl_cons]
    have hle : acc * 10 + d ≤ t.foldl (fun a v => a * 10 + v) (acc * 10 + d) :=
      foldlN_ge t _
    rw [Nat.mod_eq_of_lt (by omega)]
    exact ih _ h

/-- Bridge: when the selected digits fit in a `u64` (at most 19 decimal
digits), the wrapping fold computes the exact value. -/
theorem digitsVal_eq_short {ds : List Nat} (hd : ∀ d ∈ ds, d < 10)
    (hlen : ds.length ≤ 19) : digitsVal ds = digitsValN ds := by
  have hb : digitsValN ds < U64 := by
    have h1 := digitsValN_lt hd
    have h2 : (10 : Nat) ^ ds.length ≤ 10 ^ 19 :=
      Nat.pow_le_pow_right (by norm_num) hlen
    have h3 : (10 : Nat) ^ 19 < 2 ^ 64 := by norm_num
    unfold U64
    omega
  exact foldlW_eq ds 0 hb

theorem clearAll_all_none {rest : VL} {o : Option Nat}
    (h : o ∈ clearAll rest) : o = none := by
  simp only [clearAll, List.mem_map] at h
  obtain ⟨a, -, h⟩ := h
  exact h.symm

/-- Every slot of the state after `update`'s scan is empty, an old slot,
or the written digit. -/
theorem updAux_mem {st : VL} : ∀ {digit locked : Nat} {o : Option Nat},
    o ∈ updAux st digit locked → o = none ∨ o ∈ st ∨ o = some digit := by
  induction st with
  | nil => intro d l o h; simp [updAux] at h
  | cons v t ih =>
    intro d locked o h
    match locked with
    | locked + 1 =>
      simp only [updAux, List.mem_cons] at h
      rcases h with rfl | h
      · exact Or.inr (Or.inl (List.mem_cons_self _ _))
      · rcases ih h with h | h | h
        · exact Or.inl h
        · exact Or.inr (Or.inl (List.mem_cons_of_mem _ h))
        · exact Or.inr (Or.inr h)
    | 0 =>
      match v with
      | none =>
        simp only [updAux, List.mem_cons] at h
        rcases h with rfl | h
        · exact Or.inr (Or.inr rfl)
        · exact Or.inl (clearAll_all_none h)
      | some x =>
        by_cases hx : x < d
        · simp only [updAux, if_pos hx, List.mem_cons] at h
          rcases h with rfl | h
          · exact Or.inr (Or.inr rfl)
          · exact Or.inl (clearAll_all_none h)
        · simp only [updAux, if_neg hx, List.mem_cons] at h
          rcases h with rfl | h
          · exact Or.inr (Or.inl (List.mem_cons_self _ _))
          · rcases ih h with h | h | h
            · exact Or.inl h
            · exact Or.inr (Or.inl (List.mem_cons_of_mem _ h))
            · exact Or.inr (Or.inr h)

/-- Every slot of the folded state is empty, an initial slot, or holds a
digit of the line. -/
theorem cvFold_mem {line : List Nat} : ∀ {st : VL} {rem : Nat} {o : Option Nat},
    o ∈ cvFold line st rem → o = none ∨ o ∈ st ∨ ∃ d ∈ line, o = some d := by
  induction line with
  | nil => intro st rem o h; exact Or.inr (Or.inl h)
  | cons d t ih =>
    intro st rem o h
    rw [cvFold] at h
    rcases ih h with h | h | ⟨e, he, rfl⟩
    · exact Or.inl h
    · rcases updAux_mem (show o ∈ updAux st d (st.length - rem) from h)
        with h | h | h
      · exact Or.inl h
      · exact Or.inr (Or.inl h)
      · exact Or.inr (Or.inr ⟨d, List.mem_cons_self _ _, h⟩)
    · exact Or.inr (Or.inr ⟨e, List.mem_cons_of_mem _ he, rfl⟩)

theorem getDigits_mem {st : VL} : ∀ {ds : List Nat}, getDigits st = some ds →
    ∀ d ∈ ds, some d ∈ st := by
  induction st with
  | nil =>
    intro ds h d hd
    simp only [getDigits, Option.some_inj] at h
    subst h
    simp at hd
  | cons v t ih =>
    intro ds h d hd
    match v with
    | none => simp [getDigits] at h
    | some x =>
      simp only [getDigits, Option.map_eq_some'] at h
      obtain ⟨ds0, h0, rfl⟩ := h
      rcases List.mem_cons.mp hd with rfl | hd
      · exact List.mem_cons_self _ _
      · exact List.mem_cons_of_mem _ (ih h0 d hd)

theorem get_value_eq_short {st : VL}
    (hok : ∀ o ∈ st, ∀ v, o = some v → v < 10) (hlen : st.length ≤ 19) :
    get_value st = get_valueN st := by
  unfold get_value get_valueN
  cases hg : getDigits st with
  | none => rfl
  | some ds =>
    simp only [Option.map_some']
    congr 1
    apply digitsVal_eq_short
    · intro d hd
      exact hok (some d) (getDigits_mem hg d hd) d rfl
    · rw [getDigits_length hg]
      exact hlen

/-- For `size ≤ 19` the `u64` fold never wraps, so the faithful
`compute_voltage` agrees with the ideal one. -/
theorem compute_voltage_eq_short {line : List Nat} {k : Nat}
    (hd : ∀ d ∈ line, d < 10) (hk : k ≤ 19) :
    compute_voltage line k = compute_voltageN line k := by
  unfold compute_voltage compute_voltageN
  apply get_value_eq_short
  · intro o ho v hv
    rcases cvFold_mem ho with h | h | ⟨d, hdm, h⟩
    · rw [h] at hv; cases hv
    · rw [List.eq_of_mem_replicate h] at hv; cases hv
    · rw [h] at hv
      injection hv with hdv
      rw [← hdv]
      exact hd d hdm
  · rw [cvFold_length, List.length_replicate]
    exact hk

end Day3

/-- Claim C3 as stated is false: `get_value` folds the selected digits
into a `u64`, which wraps (release profile; it panics in debug) as soon
as `k ≥ 20` digits are selected, and such `k` are inside the claim's
domain `1 ≤ k ≤` line length.  On the line of twenty 9s with `k = 20`
the only subsequence of length 20 is the line itself (a sublist of equal
length is the whole list), whose value is `10^20 - 1`, yet
`compute_voltage` returns `(10^20 - 1) mod 2^64 = 7766279631452241919`. -/
theorem c3_counterexample :
    Day3.compute_voltage (List.replicate 20 9) 20 = some 7766279631452241919 ∧
    Day3.digitsValN (List.replicate 20 9) = 99999999999999999999 ∧
    Day3.compute_voltage (List.replicate 20 9) 20
      ≠ some (Day3.digitsValN (List.replicate 20 9)) := by
  refine ⟨by decide, by decide, by decide⟩

/-- Claim C3 amended: for every line of decimal digits and every
`1 ≤ k ≤ 19` with `k ≤` line length — so that the selected value fits
in a `u64` and the final fold cannot wrap — `compute_voltage` returns
the largest number formed by any subsequence of exactly `k` digits in
their original order; in particular every slot is filled at the end, so
`get_value`'s `expect` never panics. -/
theorem c3_day3_voltage_amended (line : List Nat) (k : Nat)
    (_h1 : 1 ≤ k) (hk : k ≤ 19) (h2 : k ≤ line.length)
    (hd : ∀ d ∈ line, d < 10) :
    ∃ t, t.Sublist line ∧ t.length = k ∧
      Day3.compute_voltage line k = some (Day3.digitsValN t) ∧
      ∀ u, u.Sublist line → u.length = k →
        Day3.digitsValN u ≤ Day3.digitsValN t := by
  obtain ⟨t, ht1, ht2, ht3, ht4⟩ := Day3.compute_voltageN_max k line h2 hd
  exact ⟨t, ht1, ht2,
    by rw [Day3.compute_voltage_eq_short hd hk]; exact ht3, ht4⟩

/-- Witness for C3 on the line `2789` with `k = 2`. -/
theorem c3_witness :
    ∃ t, t.Sublist [2, 7, 8, 9] ∧ t.length = 2 ∧
      Day3.compute_voltage [2, 7, 8, 9] 2 = some (Day3.digitsValN t) ∧
      ∀ u, u.Sublist [2, 7, 8, 9] → u.length = 2 →
        Day3.digitsValN u ≤ Day3.digitsValN t :=
  c3_day3_voltage_amended [2, 7, 8, 9] 2 (by decide) (by decide) (by decide)
    (by decide)

namespace Day8

/-- Embedding of day 8 `Point` (three `u128` coordinates,
src/aoc-2025-8/src/main.rs). -/
structure Point where
  x : Nat
  y : Nat
  z : Nat
deriving DecidableEq

/-- Embedding of `u128::abs_diff`. -/
def abs_diff (a b : Nat) : Nat := max a b - min a b

/-- Embedding of day 8 `norm` (u128 arithmetic; overflow, which would
panic in the source, is not modelled). -/
def norm (p : Point) : Nat := p.x * p.x + p.y * p.y + p.z * p.z

/-- Embedding of day 8 `distance`. -/
def distance (p q : Point) : Nat :=
  norm ⟨abs_diff p.x q.x, abs_diff p.y q.y, abs_diff p.z q.z⟩

/-- Embedding of day 8 `Pair`. -/
structure Pair where
  first : Point
  second : Point
  dist : Nat
deriving DecidableEq

/-- Embedding of day 8 `pair_from_points`. -/
def pair_from_points (p q : Point) : Pair := ⟨p, q, distance p q⟩

/-- Embedding of day 8 `insert_sorted`: insert a pair at a position that
keeps the list sorted by distance (the source finds the position with
`binary_search_by` and inserts there in both the `Ok` and `Err` case). -/
def insert_sorted : List Pair → Pair → List Pair
  | [], pair => [pair]
  | p :: rest, pair =>
    if pair.dist ≤ p.dist then pair :: p :: rest else p :: insert_sorted rest pair

/-- Embedding of day 8 `Network`. -/
structure Network where
  points : List Point
  count_pairs : Nat

/-- Inner loop body of `Network::compute_smallest_distances`: the state is
`(current_distances, curr_max)`. -/
def csdInner (count_pairs : Nat) (point : Point) (st : List Pair × Nat)
    (already_point : Point) : List Pair × Nat :=
  let pair := pair_from_points point already_point
  if st.1.length < count_pairs then
    (insert_sorted st.1 pair, max st.2 pair.dist)
  else if pair.dist < st.2 then
    let inserted := insert_sorted st.1.dropLast pair
    (inserted, ((inserted.getLast?).map Pair.dist).getD 0)
  else st

/-- Embedding of `Network::compute_smallest_distances`: keep the
`count_pairs` closest pairs among all pairs of distinct indices, sorted
by distance.  The fold state is
`(current_distances, curr_points, curr_max)`. -/
def Network.compute_smallest_distances (net : Network) : List Pair :=
  (net.points.foldl
    (fun (st : List Pair × List Point × Nat) point =>
      let inner := st.2.1.foldl (csdInner net.count_pairs point) (st.1, st.2.2)
      (inner.1, st.2.1 ++ [point], inner.2))
    ([], [], 0)).1

/-- Embedding of `HashSet<Point>::insert` on a duplicate-free list. -/
def hsInsert (s : List Point) (p : Point) : List Point :=
  if p ∈ s then s else s ++ [p]

/-- Embedding of `HashSet::from([p, q])`. -/
def hsFrom2 (p q : Point) : List Point := hsInsert (hsInsert [] p) q

/-- Embedding of `HashSet::extend`. -/
def hsExtend (s t : List Point) : List Point := t.foldl hsInsert s

/-- Stable ascending insertion used to embed `Vec::sort` on a vector of
`usize`. -/
def sortedInsertNat (a : Nat) : List Nat → List Nat
  | [] => [a]
  | b :: rest => if a ≤ b then a :: b :: rest else b :: sortedInsertNat a rest

/-- Embedding of `Vec::sort` (a stable ascending sort) on a vector of
`usize`. -/
def sortNat : List Nat → List Nat
  | [] => []
  | a :: rest => sortedInsertNat a (sortNat rest)

/-- Embedding of `Network::find_smallest_distances_circuit_prod` (day 8,
lines 76-121): a union-find over the closest pairs followed by the
product of the three largest circuit sizes. -/
def Network.find_smallest_distances_circuit_prod (net : Network) : Nat :=
  let pairs := net.compute_smallest_distances
  let circuits := pairs.foldl
    (fun (circuits : List (List Point)) pair =>
      let point1 := pair.first
      let point2 := pair.second
      let index1 := circuits.findIdx? (fun circuit => point1 ∈ circuit)
      let index2 := circuits.findIdx? (fun circuit => point2 ∈ circuit)
      match index1, index2 with
      | none, none => circuits ++ [hsFrom2 point1 point2]
      | none, some i2 => circuits.set i2 (hsInsert (circuits.getD i2 []) point1)
      | some i1, none => circuits.set i1 (hsInsert (circuits.getD i1 []) point2)
      | some i1, some i2 =>
        if i1 ≠ i2 then
          let points_to_add := circuits.getD i2 []
          (circuits.set i1 (hsExtend (circuits.getD i1 []) points_to_add)).eraseIdx i2
        else circuits)
    []
  let circuits_length := circuits.map List.length
  ((sortNat circuits_length).reverse.take 3).prod

/-- Embedding of `Network::find_last_pair_prod` (day 8, lines 123-168);
the source body is token-for-token identical to
`find_smallest_distances_circuit_prod`. -/
def Network.find_last_pair_prod (net : Network) : Nat :=
  let pairs := net.compute_smallest_distances
  let circuits := pairs.foldl
    (fun (circuits : List (List Point)) pair =>
      let point1 := pair.first
      let point2 := pair.second
      let index1 := circuits.findIdx? (fun circuit => point1 ∈ circuit)
      let index2 := circuits.findIdx? (fun circuit => point2 ∈ circuit)
      match index1, index2 with
      | none, none => circuits ++ [hsFrom2 point1 point2]
      | none, some i2 => circuits.set i2 (hsInsert (circuits.getD i2 []) point1)
      | some i1, none => circuits.set i1 (hsInsert (circuits.getD i1 []) point2)
      | some i1, some i2 =>
        if i1 ≠ i2 then
          let points_to_add := circuits.getD i2 []
          (circuits.set i1 (hsExtend (circuits.getD i1 []) points_to_add)).eraseIdx i2
        else circuits)
    []
  let circuits_length := circuits.map List.length
  ((sortNat circuits_length).reverse.take 3).prod

/-- Embedding of day 8 `part1`. -/
def part1 (net : Network) : Nat := net.find_smallest_distances_circuit_prod

/-- Embedding of day 8 `part2`. -/
def part2 (net : Network) : Nat := net.find_last_pair_prod

end Day8

/-- Claim C10: day 8's two parts always agree — `find_last_pair_prod`
computes the same value as `find_smallest_distances_circuit_prod` on
every network (the two source bodies are identical), hence part 1 and
part 2 return the same answer on every input. -/
theorem c10_day8_parts_agree (net : Day8.Network) :
    net.find_last_pair_prod = net.find_smallest_distances_circuit_prod ∧
    Day8.part1 net = Day8.part2 net := ⟨rfl, rfl⟩

namespace Day11

def lookupN (net : List (String × List String)) (k : String) : Option (List String) :=
  match net with
  | [] => none
  | (a, l) :: rest => if a = k then some l else lookupN rest k

def lookupC (cache : List (String × Nat)) (k : String) : Option Nat :=
  match cache with
  | [] => none
  | (a, n) :: rest => if a = k then some n else lookupC rest k

def succs (net : List (String × List String)) (v : String) : List String :=
  (lookupN net v).getD []

def pccF (net : List (String × List String)) :
    Nat → String ⊕ List String → List (String × Nat) → Option (Nat × List (String × Nat))
  | 0, _, _ => none
  | f + 1, Sum.inl origin, cache =>
    match lookupC cache origin with
    | some c => some (c, cache)
    | none =>
      match lookupN net origin with
      | none => some (0, (origin, 0) :: cache)
      | some targets =>
        match pccF net f (Sum.inr targets) cache with
        | none => none
        | some (s, cache1) => some (s, (origin, s) :: cache1)
  | _ + 1, Sum.inr [], cache => some (0, cache)
  | f + 1, Sum.inr (t :: ts), cache =>
    match pccF net f (Sum.inl t) cache with
    | none => none
    | some (c, cache1) =>
      match pccF net f (Sum.inr ts) cache1 with
      | none => none
      | some (s, cache2) => some (c + s, cache2)

def paths_count (net : List (String × List String)) (source target : String)
    (fuel : Nat) : Option Nat :=
  (pccF net fuel (Sum.inl source) [(target, 1)]).map Prod.fst

def pathsEnum (net : List (String × List String)) :
    Nat → String → String → List (List String)
  | 0, _, _ => []
  | f + 1, s, t =>
    if s = t then [[s]]
    else
      match lookupN net s with
      | none => []
      | some targets =>
        (targets.flatMap (fun u => pathsEnum net f u t)).map (fun p => s :: p)

def IsPath (net : List (String × List String)) (s t : String) (p : List String) : Prop :=
  p ≠ [] ∧ p.head? = some s ∧ p.getLast? = some t ∧
    List.Chain' (fun a b => b ∈ succs net a) p ∧ t ∉ p.dropLast

def exNet : List (String × List String) := [("a", ["b", "b"])]

def wNet : List (String × List String) := [("a", ["b", "c"]), ("b", ["c"])]

def maxLen (net : List (String × List String)) : Nat :=
  net.foldr (fun pr m => max pr.2.length m) 0

lemma lookupN_mem {net : List (String × List String)} {a : String} {l : List String}
    (h : lookupN net a = some l) : (a, l) ∈ net := by
  induction net with
  | nil => simp [lookupN] at h
  | cons pr rest ih =>
    obtain ⟨b, l'⟩ := pr
    simp only [lookupN] at h
    by_cases hb : b = a
    · rw [if_pos hb] at h
      exact List.mem_cons.mpr (Or.inl (by cases h; cases hb; rfl))
    · rw [if_neg hb] at h
      exact List.mem_cons.mpr (Or.inr (ih h))

lemma lookupN_length_le {net : List (String × List String)} {a : String} {l : List String}
    (h : lookupN net a = some l) : l.length ≤ maxLen net := by
  induction net with
  | nil => simp [lookupN] at h
  | cons pr rest ih =>
    obtain ⟨b, l'⟩ := pr
    simp only [lookupN] at h
    simp only [maxLen, List.foldr_cons]
    by_cases hb : b = a
    · rw [if_pos hb] at h
      cases h
      exact le_max_left _ _
    · rw [if_neg hb] at h
      exact le_trans (ih h) (le_max_right _ _)

lemma isPath_of_mem_pathsEnum {net : List (String × List String)} :
    ∀ {f : Nat} {s t : String} {p : List String},
      p ∈ pathsEnum net f s t → IsPath net s t p := by
  intro f
  induction f with
  | zero => intro s t p hp; simp [pathsEnum] at hp
  | succ f ih =>
    intro s t p hp
    simp only [pathsEnum] at hp
    by_cases hst : s = t
    · rw [if_pos hst] at hp
      simp only [List.mem_singleton] at hp
      subst hp
      subst hst
      exact ⟨by simp, rfl, rfl, List.chain'_singleton _, by simp⟩
    · rw [if_neg hst] at hp
      cases hl : lookupN net s with
      | none => rw [hl] at hp; simp at hp
      | some l =>
        rw [hl] at hp
        obtain ⟨q, hq, rfl⟩ := List.mem_map.mp hp
        obtain ⟨u, hu, hq⟩ := List.mem_flatMap.mp hq
        obtain ⟨hq0, hqh, hql, hqc, hqd⟩ := ih hq
        obtain ⟨u', q₂, rfl⟩ : ∃ u' q₂, q = u' :: q₂ := by
          cases q with
          | nil => exact absurd rfl hq0
          | cons a b => exact ⟨a, b, rfl⟩
        obtain rfl : u' = u := by simpa using hqh
        refine ⟨by simp, rfl, ?_, ?_, ?_⟩
        · rw [List.getLast?_cons_cons]; exact hql
        · refine List.chain'_cons.mpr ⟨?_, hqc⟩
          simp [succs, hl, hu]
        · simp only [List.dropLast_cons₂, List.mem_cons, not_or]
          exact ⟨fun h => hst h.symm, hqd⟩

lemma isPath_cons_elim {net : List (String × List String)} {s t u : String}
    {q : List String} (h : IsPath net s t (s :: u :: q)) :
    t ≠ s ∧ u ∈ succs net s ∧ IsPath net u t (u :: q) := by
  obtain ⟨-, -, hl, hc, hd⟩ := h
  rw [List.getLast?_cons_cons] at hl
  obtain ⟨hsu, hc'⟩ := List.chain'_cons.mp hc
  simp only [List.dropLast_cons₂, List.mem_cons, not_or] at hd
  exact ⟨hd.1, hsu, ⟨by simp, rfl, hl, hc', hd.2⟩⟩

lemma isPath_shape {net : List (String × List String)} {s t : String} {p : List String}
    (h : IsPath net s t p) : ∃ q, p = s :: q := by
  obtain ⟨h0, hh, -, -, -⟩ := h
  cases p with
  | nil => exact absurd rfl h0
  | cons a q => exact ⟨q, by simpa using congrArg (List.cons · q) (by simpa using hh)⟩

lemma isPath_self {net : List (String × List String)} {t : String} {p : List String}
    (h : IsPath net t t p) : p = [t] := by
  obtain ⟨q, rfl⟩ := isPath_shape h
  cases q with
  | nil => rfl
  | cons u q₂ =>
    obtain ⟨hne, -, -⟩ := isPath_cons_elim h
    exact absurd rfl hne

lemma mem_pathsEnum_of_isPath {net : List (String × List String)} :
    ∀ {f : Nat} {s t : String} {p : List String},
      IsPath net s t p → p.length ≤ f → p ∈ pathsEnum net f s t := by
  intro f
  induction f with
  | zero =>
    intro s t p hp hlen
    obtain ⟨h0, -, -, -, -⟩ := hp
    cases p with
    | nil => exact absurd rfl h0
    | cons a q => simp at hlen
  | succ f ih =>
    intro s t p hp hlen
    simp only [pathsEnum]
    by_cases hst : s = t
    · subst hst
      rw [if_pos rfl]
      simp [isPath_self hp]
    · rw [if_neg hst]
      obtain ⟨q, rfl⟩ := isPath_shape hp
      cases q with
      | nil =>
        obtain ⟨-, -, hl, -, -⟩ := hp
        simp at hl
        exact absurd hl hst
      | cons u q₂ =>
        obtain ⟨-, hu, hq⟩ := isPath_cons_elim hp
        have hu' : ∃ l, lookupN net s = some l ∧ u ∈ l := by
          simp only [succs] at hu
          cases hl : lookupN net s with
          | none => rw [hl] at hu; simp at hu
          | some l => rw [hl] at hu; exact ⟨l, rfl, by simpa using hu⟩
        obtain ⟨l, hl, hul⟩ := hu'
        rw [hl]
        refine List.mem_map.mpr ⟨u :: q₂, ?_, rfl⟩
        refine List.mem_flatMap.mpr ⟨u, hul, ?_⟩
        exact ih hq (by simpa using Nat.le_of_succ_le_succ hlen)

lemma isPath_length_le {net : List (String × List String)} {t : String}
    (rank : String → Nat) (hA : ∀ a b, b ∈ succs net a → rank b < rank a) :
    ∀ {p : List String} {s : String}, IsPath net s t p → p.length ≤ rank s + 1 := by
  intro p
  induction p with
  | nil => intro s hp; exact absurd rfl hp.1
  | cons a q ih =>
    intro s hp
    obtain rfl : a = s := by simpa using hp.2.1
    cases q with
    | nil => simp
    | cons u q₂ =>
      obtain ⟨-, hu, hq⟩ := isPath_cons_elim hp
      have := ih hq
      have := hA a u hu
      simp only [List.length_cons] at *
      omega

lemma pathsEnum_stable {net : List (String × List String)} {t : String}
    (rank : String → Nat) (hA : ∀ a b, b ∈ succs net a → rank b < rank a) :
    ∀ (f : Nat) (v : String), rank v + 1 ≤ f →
      pathsEnum net f v t = pathsEnum net (rank v + 1) v t := by
  intro f
  induction f using Nat.strong_induction_on with
  | _ f ih =>
    intro v hv
    match f, hv with
    | f' + 1, hv =>
      by_cases hvt : v = t
      · subst hvt
        simp [pathsEnum]
      · simp only [pathsEnum, if_neg hvt]
        cases hl : lookupN net v with
        | none => simp only [hl]
        | some l =>
          simp only [hl]
          have hcong : ∀ u ∈ l, pathsEnum net f' u t = pathsEnum net (rank v) u t := by
            intro u hu
            have hru : rank u < rank v := hA v u (by simp [succs, hl, hu])
            by_cases hf' : rank v ≤ f'
            · rw [ih f' (by omega) u (by omega)]
              by_cases hrv : rank v = rank u + 1
              · rw [hrv]
              · rw [ih (rank v) (by omega) u (by omega)]
            · omega
          rw [show l.flatMap (fun u => pathsEnum net f' u t)
              = l.flatMap (fun u => pathsEnum net (rank v) u t) from by
            rw [List.flatMap_def, List.flatMap_def, List.map_congr_left hcong]]

lemma nodup_flatMap_heads {l : List String} {g : String → List (List String)}
    (hnd : l.Nodup) (hg : ∀ u ∈ l, (g u).Nodup)
    (hh : ∀ u ∈ l, ∀ p ∈ g u, p.head? = some u) : (l.flatMap g).Nodup := by
  induction l with
  | nil => simp
  | cons u rest ih =>
    rw [List.flatMap_cons]
    have hnr : rest.Nodup := (List.nodup_cons.mp hnd).2
    have hur : u ∉ rest := (List.nodup_cons.mp hnd).1
    refine List.Nodup.append (hg u (by simp)) (ih hnr ?_ ?_) ?_
    · exact fun v hv => hg v (by simp [hv])
    · exact fun v hv p hp => hh v (by simp [hv]) p hp
    · intro p hp hp'
      obtain ⟨v, hv, hpv⟩ := List.mem_flatMap.mp hp'
      have h1 := hh u (by simp) p hp
      have h2 := hh v (by simp [hv]) p hpv
      rw [h1] at h2
      obtain rfl : u = v := by simpa using h2
      exact hur hv

lemma pathsEnum_head {net : List (String × List String)} {f : Nat} {s t : String}
    {p : List String} (hp : p ∈ pathsEnum net f s t) : p.head? = some s :=
  (isPath_of_mem_pathsEnum hp).2.1

lemma pathsEnum_nodup {net : List (String × List String)}
    (hnd : ∀ pr ∈ net, pr.2.Nodup) :
    ∀ (f : Nat) (s t : String), (pathsEnum net f s t).Nodup := by
  intro f
  induction f with
  | zero => intro s t; simp [pathsEnum]
  | succ f ih =>
    intro s t
    simp only [pathsEnum]
    by_cases hst : s = t
    · rw [if_pos hst]; simp
    · rw [if_neg hst]
      cases hl : lookupN net s with
      | none => simp
      | some l =>
        refine List.Nodup.map (fun p q h => by simpa using h) ?_
        refine nodup_flatMap_heads ?_ (fun u _ => ih u t) ?_
        · exact hnd (s, l) (lookupN_mem hl)
        · exact fun u _ p hp => pathsEnum_head hp

lemma cnt_target {net : List (String × List String)} {t : String} (f : Nat) :
    (pathsEnum net (f + 1) t t).length = 1 := by
  simp [pathsEnum]

lemma cnt_no_edges {net : List (String × List String)} {v t : String} (f : Nat)
    (hvt : v ≠ t) (hl : lookupN net v = none) :
    (pathsEnum net (f + 1) v t).length = 0 := by
  simp [pathsEnum, if_neg hvt, hl]

lemma cnt_edges {net : List (String × List String)} {v t : String} {l : List String}
    (rank : String → Nat) (hA : ∀ a b, b ∈ succs net a → rank b < rank a)
    (hvt : v ≠ t) (hl : lookupN net v = some l) :
    (pathsEnum net (rank v + 1) v t).length
      = (l.map (fun u => (pathsEnum net (rank u + 1) u t).length)).sum := by
  conv_lhs => rw [pathsEnum]
  rw [if_neg hvt, hl, List.length_map, List.length_flatMap]
  congr 1
  refine List.map_congr_left ?_
  intro u hu
  have hru : rank u < rank v := hA v u (by simp [succs, hl, hu])
  simp only [Function.comp_apply]
  rw [pathsEnum_stable rank hA (rank v) u (by omega)]

def CacheOK (net : List (String × List String)) (t : String) (rank : String → Nat)
    (cache : List (String × Nat)) : Prop :=
  lookupC cache t = some 1 ∧
    ∀ v n, lookupC cache v = some n → n = (pathsEnum net (rank v + 1) v t).length

lemma pccF_correct {net : List (String × List String)} {t : String}
    (rank : String → Nat) (hA : ∀ a b, b ∈ succs net a → rank b < rank a) :
    ∀ f : Nat,
      (∀ cache v, CacheOK net t rank cache →
        (rank v + 1) * (maxLen net + 2) ≤ f →
        ∃ ch, pccF net f (Sum.inl v) cache
            = some ((pathsEnum net (rank v + 1) v t).length, ch)
          ∧ CacheOK net t rank ch) ∧
      (∀ cache l R, CacheOK net t rank cache →
        (∀ u ∈ l, rank u < R) →
        R * (maxLen net + 2) + l.length + 1 ≤ f →
        ∃ ch, pccF net f (Sum.inr l) cache
            = some ((l.map (fun u => (pathsEnum net (rank u + 1) u t).length)).sum, ch)
          ∧ CacheOK net t rank ch) := by
  intro f
  induction f using Nat.strong_induction_on with
  | _ f ih =>
    constructor
    · intro cache v hC hf
      have hmul : (rank v + 1) * (maxLen net + 2)
          = rank v * (maxLen net + 2) + (maxLen net + 2) := by ring
      rw [hmul] at hf
      cases f with
      | zero => omega
      | succ f' =>
        simp only [pccF]
        cases hc : lookupC cache v with
        | some c =>
          simp only [hc]
          refine ⟨cache, ?_, hC⟩
          rw [hC.2 v c hc]
        | none =>
          simp only [hc]
          have hvt : v ≠ t := by
            intro h
            subst h
            rw [hC.1] at hc
            cases hc
          cases hl : lookupN net v with
          | none =>
            simp only [hl]
            refine ⟨(v, 0) :: cache, ?_, ?_, ?_⟩
            · rw [cnt_no_edges (rank v) hvt hl]
            · simp only [lookupC, if_neg hvt]
              exact hC.1
            · intro w n hw
              simp only [lookupC] at hw
              by_cases hvw : v = w
              · rw [if_pos hvw] at hw
                cases hw
                rw [← hvw, cnt_no_edges (rank v) hvt hl]
              · rw [if_neg hvw] at hw
                exact hC.2 w n hw
          | some l =>
            simp only [hl]
            have hlen : l.length ≤ maxLen net := lookupN_length_le hl
            have hfu : rank v * (maxLen net + 2) + l.length + 1 ≤ f' := by omega
            have hR : ∀ u ∈ l, rank u < rank v := fun u hu =>
              hA v u (by simp [succs, hl, hu])
            obtain ⟨ch1, hch1, hCok1⟩ := (ih f' (by omega)).2 cache l (rank v) hC hR hfu
            simp only [hch1]
            refine ⟨(v, (l.map
                (fun u => (pathsEnum net (rank u + 1) u t).length)).sum) :: ch1,
              ?_, ?_, ?_⟩
            · rw [cnt_edges rank hA hvt hl]
            · simp only [lookupC, if_neg hvt]
              exact hCok1.1
            · intro w n hw
              simp only [lookupC] at hw
              by_cases hvw : v = w
              · rw [if_pos hvw] at hw
                cases hw
                rw [← hvw, cnt_edges rank hA hvt hl]
              · rw [if_neg hvw] at hw
                exact hCok1.2 w n hw
    · intro cache l R hC hrank hf
      cases f with
      | zero => omega
      | succ f' =>
        cases l with
        | nil =>
          simp only [pccF]
          exact ⟨cache, by simp, hC⟩
        | cons u us =>
          simp only [pccF]
          have h1 : (rank u + 1) * (maxLen net + 2) ≤ f' := by
            have hle : rank u + 1 ≤ R := hrank u (by simp)
            have := Nat.mul_le_mul_right (maxLen net + 2) hle
            simp only [List.length_cons] at hf
            omega
          obtain ⟨ch1, hch1, hC1⟩ := (ih f' (by omega)).1 cache u hC h1
          simp only [hch1]
          have h2 : R * (maxLen net + 2) + us.length + 1 ≤ f' := by
            simp only [List.length_cons] at hf
            omega
          obtain ⟨ch2, hch2, hC2⟩ := (ih f' (by omega)).2 ch1 us R hC1
            (fun w hw => hrank w (by simp [hw])) h2
          simp only [hch2]
          exact ⟨ch2, by rw [List.map_cons, List.sum_cons], hC2⟩

lemma paths_count_correct (net : List (String × List String))
    (source target : String) (rank : String → Nat)
    (hA : ∀ pr ∈ net, ∀ b ∈ pr.2, rank b < rank pr.1)
    (hnd : ∀ pr ∈ net, pr.2.Nodup) :
    ∃ (F : Nat) (P : List (List String)), P.Nodup ∧
      (∀ p, p ∈ P ↔ IsPath net source target p) ∧
      ∀ f, F ≤ f → paths_count net source target f = some P.length := by
  have hA' : ∀ a b, b ∈ succs net a → rank b < rank a := by
    intro a b hb
    simp only [succs] at hb
    cases hl : lookupN net a with
    | none => rw [hl] at hb; simp at hb
    | some l =>
      rw [hl] at hb
      exact hA (a, l) (lookupN_mem hl) b (by simpa using hb)
  refine ⟨(rank source + 1) * (maxLen net + 2),
    pathsEnum net (rank source + 1) source target, ?_, ?_, ?_⟩
  · exact pathsEnum_nodup hnd _ _ _
  · intro p
    constructor
    · exact isPath_of_mem_pathsEnum
    · intro hp
      exact mem_pathsEnum_of_isPath hp (isPath_length_le rank hA' hp)
  · intro f hf
    have hC : CacheOK net target rank [(target, 1)] := by
      constructor
      · simp [lookupC]
      · intro v n hv
        simp only [lookupC] at hv
        by_cases ht : target = v
        · rw [if_pos ht] at hv
          cases hv
          rw [← ht, cnt_target]
        · rw [if_neg ht] at hv
          cases hv
    obtain ⟨ch, hch, -⟩ := (pccF_correct rank hA' f).1 [(target, 1)] source hC hf
    simp [paths_count, hch]

end Day11


/-- Claim C6 as stated is false: with a duplicated entry in a successor
list the code counts the same directed path several times.  On the
network with the single successor list `a -> [b, b]`, `paths_count`
returns 2, yet the only directed path from `a` to `b` is `[a, b]` (the
enumeration lists it twice and collapses to one path after `dedup`), so
the number of distinct directed paths is 1. -/
theorem c6_counterexample :
    Day11.paths_count Day11.exNet "a" "b" 5 = some 2 ∧
    Day11.pathsEnum Day11.exNet 2 "a" "b" = [["a", "b"], ["a", "b"]] ∧
    (Day11.pathsEnum Day11.exNet 2 "a" "b").dedup = [["a", "b"]] ∧
    Day11.IsPath Day11.exNet "a" "b" ["a", "b"] := by
  refine ⟨by decide, by decide, by decide, ?_⟩
  exact ⟨by decide, rfl, rfl,
    List.chain'_cons.mpr ⟨by decide, List.chain'_singleton _⟩, by decide⟩

/-- Claim C6 amended: for every edge map whose successor lists are
duplicate-free and whose directed graph is acyclic (witnessed by a rank
function that strictly decreases along every edge), the memoized
`paths_count(source, target)` terminates — for every large enough fuel
it returns a value — and that value is the number of distinct directed
paths from source to target: the length of a duplicate-free list
containing exactly the paths (a path stops at its first visit of the
target; the one-node path counts when source equals target; a node
without outgoing edges contributes 0). -/
theorem c6_day11_paths_amended (net : List (String × List String))
    (source target : String) (rank : String → Nat)
    (hA : ∀ pr ∈ net, ∀ b ∈ pr.2, rank b < rank pr.1)
    (hnd : ∀ pr ∈ net, pr.2.Nodup) :
    ∃ (F : Nat) (P : List (List String)), P.Nodup ∧
      (∀ p, p ∈ P ↔ Day11.IsPath net source target p) ∧
      ∀ f, F ≤ f → Day11.paths_count net source target f = some P.length :=
  Day11.paths_count_correct net source target rank hA hnd

/-- Witness for the amended C6 theorem: the network `a -> [b, c]`,
`b -> [c]` is acyclic with duplicate-free successor lists, so the
theorem applies to it with the rank `a -> 2, b -> 1, c -> 0`. -/
theorem c6_witness :
    ∃ (F : Nat) (P : List (List String)), P.Nodup ∧
      (∀ p, p ∈ P ↔ Day11.IsPath Day11.wNet "a" "c" p) ∧
      ∀ f, F ≤ f → Day11.paths_count Day11.wNet "a" "c" f = some P.length :=
  c6_day11_paths_amended Day11.wNet "a" "c"
    (fun v => if v = "a" then 2 else if v = "b" then 1 else 0) (by decide) (by decide)
